import Mathlib

/-!
# Verification of the RBAC admin backend core (mall-api-base)

A shallow embedding, in Lean 4, of the role-based access control core of the
mall administration backend: the credential store (users / roles / permissions
and their associations), the permission resolver (effective permission sets and
the permission tree), the JWT authentication middleware, and the rate-limiter
middleware family.  Each definition is translated from the corresponding
JavaScript source; database rows are lists of records, SQL joins become list
filters, and Redis counters become association lists.  The theorems at the end
of the file settle the specification claims against these definitions.
-/

namespace MallApi

/-- A row of the `users` table (the fields relevant to authentication and
role resolution; `status = 1` means enabled, `0` disabled). -/
structure User where
  id : Nat
  username : String
  email : String
  status : Nat
  deriving Repr, DecidableEq

/-- A row of the `roles` table. -/
structure Role where
  id : Nat
  name : String
  code : String
  status : Nat
  deriving Repr, DecidableEq

/-- A row of the `permissions` table.  `ptype` renders the source's `type`
column (`menu` / `button` / `api`); `parent_id = 0` marks a root. -/
structure Permission where
  id : Nat
  name : String
  code : String
  ptype : String
  parent_id : Nat
  path : String
  method : String
  icon : String
  sort_order : Nat
  status : Nat
  deriving Repr, DecidableEq

/-- The relational store backing the repositories: entity tables plus the two
association tables `user_roles` (user id, role id) and `role_permissions`
(role id, permission id). -/
structure Store where
  users : List User
  roles : List Role
  permissions : List Permission
  userRoles : List (Nat × Nat)
  rolePermissions : List (Nat × Nat)
  deriving Repr, DecidableEq

/-- `SELECT * FROM users WHERE id = ?` (first matching row). -/
def findUser (s : Store) (uid : Nat) : Option User :=
  s.users.find? (fun u => u.id == uid)

/-- `SELECT * FROM roles WHERE id = ?` (first matching row). -/
def findRole (s : Store) (rid : Nat) : Option Role :=
  s.roles.find? (fun r => r.id == rid)

/-- `SELECT * FROM permissions WHERE id = ?` (first matching row). -/
def findPermission (s : Store) (pid : Nat) : Option Permission :=
  s.permissions.find? (fun p => p.id == pid)

/-! ## Authentication middleware (`src/middleware/auth.js`)

Header values and tokens are modelled as character lists, so that the
first-occurrence-only semantics of JavaScript's `String.prototype.replace`
with a string pattern can be rendered exactly. -/

/-- The character sequence of the string `"Bearer "`. -/
def bearerChars : List Char := ['B', 'e', 'a', 'r', 'e', 'r', ' ']

/-- `value.replace(pat, "")` for a string pattern `pat`: JavaScript removes
only the *first* occurrence of `pat` and leaves the rest of the value
untouched. -/
def stripFirst (pat : List Char) : List Char → List Char
  | [] => []
  | c :: rest =>
    if pat.isPrefixOf (c :: rest) then (c :: rest).drop pat.length
    else c :: stripFirst pat rest

/-- Whether `pat` occurs as a contiguous substring of `l`. -/
def containsSub (pat l : List Char) : Bool :=
  l.tails.any (fun t => pat.isPrefixOf t)

/-- The payload obtained from a successfully verified JWT. -/
structure JwtClaims where
  id : Nat
  username : String
  email : String
  deriving Repr, DecidableEq

/-- Outcome of the `authenticate` middleware: either an error response with a
message and an HTTP status, or the request proceeds to the downstream handler
with the resolved user attached to the request state. -/
inductive AuthOutcome where
  | reject (msg : String) (status : Nat)
  | proceed (u : User)
  deriving Repr, DecidableEq

/-- The `authenticate` middleware of `src/middleware/auth.js`.  Token
verification (`verifyToken` from the missing `config/jwt` module) is passed in
as a function returning either decoded claims or an error; a thrown
verification error lands in the middleware's catch-all branch. -/
def authenticate (s : Store) (authHeader : Option (List Char))
    (verify : List Char → Except String JwtClaims) : AuthOutcome :=
  match authHeader with
  | none => .reject "缺少认证令牌" 401
  | some hv =>
    let token := stripFirst bearerChars hv
    if token.isEmpty then .reject "认证令牌格式错误" 401
    else
      match verify token with
      | .error _ => .reject "认证失败" 401
      | .ok decoded =>
        match findUser s decoded.id with
        | none => .reject "用户不存在" 401
        | some user =>
          if user.status = 0 then .reject "用户已被禁用" 401
          else .proceed user

/-! ## Rate limiting (`src/middleware/cors.js` rate-limit section, and the
`rateLimit` middleware of the unnamed middleware file)

Redis counters are an association list from key strings to natural counts,
with a parallel association list recording the TTL set by `expire`. -/

/-- The Redis-backed counter state used by the fixed-window limiter: the
counter value of each key (0 when the key is absent, as for a fresh Redis
key) and the TTL recorded for it by the latest `expire`, if any. -/
structure CounterStore where
  counts : String → Nat
  ttls : String → Option Nat

/-- The empty counter store (no keys present). -/
def emptyCounters : CounterStore :=
  { counts := fun _ => 0, ttls := fun _ => none }

/-- The counter value stored under `k`. -/
def getCount (st : CounterStore) (k : String) : Nat := st.counts k

/-- The TTL recorded for `k`. -/
def getTtl (st : CounterStore) (k : String) : Option Nat := st.ttls k

/-- The bucket key used by the fixed-window limiter:
`` `${key}:${Math.floor(now / window)}` `` (times in whole seconds). -/
def windowKey (key : String) (window now : Nat) : String :=
  key ++ ":" ++ toString (now / window)

/-- Result record produced by `fixedWindowRateLimit`. -/
structure RLResult where
  allowed : Bool
  count : Nat
  limit : Nat
  remaining : Nat
  resetTime : Nat
  deriving Repr, DecidableEq

/-- `fixedWindowRateLimit(key, limit, window)`: increment the counter of the
current window's bucket, set its TTL to the window, and allow the request iff
the incremented count is at most the limit.  `resetTime` renders
`Math.ceil(now / window) * window`. -/
def fixedWindowRateLimit (st : CounterStore) (key : String) (limit window now : Nat) :
    RLResult × CounterStore :=
  let wk := windowKey key window now
  let count := getCount st wk + 1
  let st' : CounterStore :=
    { counts := fun x => if x == wk then count else st.counts x,
      ttls := fun x => if x == wk then some window else st.ttls x }
  ({ allowed := count ≤ limit
     count := count
     limit := limit
     remaining := limit - count
     resetTime := ((now + window - 1) / window) * window }, st')

/-- Outcome of a rate-limiter middleware: an error response or the request
proceeding to the next middleware. -/
inductive RateDecision where
  | denied (msg : String) (status : Nat)
  | proceeded
  deriving Repr, DecidableEq

/-- The `createRateLimiter` middleware around a rate-limit computation whose
attempt may throw (`backend = .error e` when any internal operation throws,
e.g. the Redis store is unreachable).  The catch branch logs and still calls
`next()`, so an internal failure yields `proceeded` with the counter state
untouched. -/
def createRateLimiter (st : CounterStore) (message : String)
    (backend : Except String (RLResult × CounterStore)) : RateDecision × CounterStore :=
  match backend with
  | .ok (result, st') =>
    if result.allowed then (.proceeded, st')
    else (.denied message 429, st')
  | .error _ => (.proceeded, st)

/-- `createRateLimiter` with the default fixed-window algorithm and default
message, applied at time `now` (seconds): the window is `windowMs / 1000` and
the limit key is prefixed with `rate_limit:`. -/
def fixedWindowMiddleware (st : CounterStore) (keyGenOut : String)
    (windowMs maxReq now : Nat) : RateDecision × CounterStore :=
  createRateLimiter st "请求过于频繁，请稍后再试"
    (.ok (fixedWindowRateLimit st ("rate_limit:" ++ keyGenOut) maxReq (windowMs / 1000) now))

/-- Run the fixed-window middleware over a sequence of request timestamps,
threading the counter state; `true` records an allowed request. -/
def fixedWindowRun (st : CounterStore) (keyGenOut : String) (windowMs maxReq : Nat) :
    List Nat → List Bool
  | [] => []
  | t :: ts =>
    match fixedWindowMiddleware st keyGenOut windowMs maxReq t with
    | (.proceeded, st') => true :: fixedWindowRun st' keyGenOut windowMs maxReq ts
    | (.denied _ _, st') => false :: fixedWindowRun st' keyGenOut windowMs maxReq ts

/-- The standalone `rateLimit` middleware of the unnamed middleware file: it
reads the current window's count before calling `next()` and denies with 429
when `requests >= max`; when the read itself throws (`getResult = .error e`)
the catch branch logs and still calls `next()`. -/
def rateLimitMw (maxReq : Nat) (getResult : Except String (Option Nat)) : RateDecision :=
  match getResult with
  | .ok current =>
    if maxReq ≤ current.getD 0 then .denied "请求过于频繁，请稍后再试" 429
    else .proceeded
  | .error _ => .proceeded

/-! ### Token bucket (`tokenBucketRateLimit`)

JavaScript number arithmetic is rendered over `ℚ` (exact arithmetic on the
rational values actually occurring).  The stored hash fields are read with
`parseFloat(x) || default`, and `parseFloat` of a stored `"0"` is falsy, so
the default also fires on a stored zero — this is modelled exactly. -/

/-- One step of `tokenBucketRateLimit`: `stored` is the `(tokens, lastRefill)`
hash for the key (`none` when the key is absent).  Returns whether the request
is allowed together with the state written back by `hmset`. -/
def tokenBucketRateLimit (stored : Option (ℚ × ℚ)) (capacity refillRate now : ℚ) :
    Bool × (ℚ × ℚ) :=
  let tokens0 : ℚ :=
    match stored with
    | none => capacity
    | some (t, _) => if t = 0 then capacity else t
  let lastRefill : ℚ :=
    match stored with
    | none => now
    | some (_, lr) => if lr = 0 then now else lr
  let timePassed := now - lastRefill
  let tokensToAdd := timePassed * refillRate
  let tokens1 : ℚ :=
    if capacity ≤ tokens0 + tokensToAdd then capacity else tokens0 + tokensToAdd
  let allowed := decide (1 ≤ tokens1)
  let tokens2 := if 1 ≤ tokens1 then tokens1 - 1 else tokens1
  (allowed, (tokens2, now))

/-- Run the token-bucket limiter over a sequence of request times, threading
the stored bucket state. -/
def tokenBucketRun (capacity refillRate : ℚ) :
    Option (ℚ × ℚ) → List ℚ → List Bool
  | _, [] => []
  | stored, t :: ts =>
    let r := tokenBucketRateLimit stored capacity refillRate t
    r.1 :: tokenBucketRun capacity refillRate (some r.2) ts

/-- Modelled from the spec: the token-bucket step as §4.5 describes it —
"per key, track (tokens, lastRefillTime); on each request, refill =
elapsed×refillRate, tokens = min(capacity, tokens+refill); allowed iff
tokens ≥ 1, consuming 1 on success".  Stored values are used as read, with
defaults only when the key is absent. -/
def specTokenBucket (stored : Option (ℚ × ℚ)) (capacity refillRate now : ℚ) :
    Bool × (ℚ × ℚ) :=
  let tokens0 : ℚ := match stored with | none => capacity | some (t, _) => t
  let lastRefill : ℚ := match stored with | none => now | some (_, lr) => lr
  let refill := (now - lastRefill) * refillRate
  let tokens1 : ℚ :=
    if capacity ≤ tokens0 + refill then capacity else tokens0 + refill
  let allowed := decide (1 ≤ tokens1)
  let tokens2 := if 1 ≤ tokens1 then tokens1 - 1 else tokens1
  (allowed, (tokens2, now))

/-- Run the spec-modelled token bucket over a sequence of request times. -/
def specTokenBucketRun (capacity refillRate : ℚ) :
    Option (ℚ × ℚ) → List ℚ → List Bool
  | _, [] => []
  | stored, t :: ts =>
    let r := specTokenBucket stored capacity refillRate t
    r.1 :: specTokenBucketRun capacity refillRate (some r.2) ts

/-! ## Permission resolution (`UserRepository` / `RoleRepository`) -/

/-- The comparison realising `ORDER BY sort_order ASC, id ASC`. -/
def permLE (p q : Permission) : Bool :=
  p.sort_order < q.sort_order || (p.sort_order == q.sort_order && p.id ≤ q.id)

/-- `permLE` as a relation, for use with the sorting machinery. -/
def permLEP (p q : Permission) : Prop := permLE p q = true

instance : DecidableRel permLEP :=
  fun p q => instDecidableEqBool (permLE p q) true

/-- `ORDER BY sort_order ASC, id ASC` rendered as a stable sort. -/
def orderBySortId (l : List Permission) : List Permission :=
  List.insertionSort permLEP l

/-- Keep-first deduplication by permission id, with the ids already seen as
accumulator. -/
def dedupByIdAux (seen : List Nat) : List Permission → List Permission
  | [] => []
  | p :: rest =>
    if p.id ∈ seen then dedupByIdAux seen rest
    else p :: dedupByIdAux (p.id :: seen) rest

/-- Deduplication by permission id keeping the first occurrence: this renders
both `SELECT DISTINCT` over rows carrying a unique id and the `Map`-based
deduplication of the Sequelize repository (two rows with the same id coming
from the same table row are identical records). -/
def dedupById (l : List Permission) : List Permission := dedupByIdAux [] l

/-- `getUserPermissions` of the raw-SQL `UserRepository`:
`SELECT DISTINCT p.* FROM permissions p JOIN role_permissions rp JOIN
user_roles ur WHERE ur.user_id = ? AND p.status = 1 ORDER BY p.sort_order,
p.id`.  Note: the join never touches the `roles` table, so the status of the
granting role is not consulted. -/
def sqlGetUserPermissions (s : Store) (uid : Nat) : List Permission :=
  dedupById (orderBySortId (s.permissions.filter (fun p =>
    p.status == 1 && s.rolePermissions.any (fun rp =>
      rp.2 == p.id && s.userRoles.any (fun ur =>
        ur.1 == uid && ur.2 == rp.1)))))

/-- `getUserPermissions` of the Sequelize `UserRepository`: load the user with
its `status = 1` roles, each with its `status = 1` permissions, then
deduplicate by permission id through a `Map`. -/
def seqGetUserPermissions (s : Store) (uid : Nat) : List Permission :=
  match findUser s uid with
  | none => []
  | some _ =>
    let enabledRoles := s.roles.filter (fun r =>
      r.status == 1 && s.userRoles.any (fun ur => ur.1 == uid && ur.2 == r.id))
    dedupById (enabledRoles.flatMap (fun r =>
      s.permissions.filter (fun p =>
        p.status == 1 && s.rolePermissions.any (fun rp =>
          rp.1 == r.id && rp.2 == p.id))))

/-- `getRolePermissions` of the raw-SQL `RoleRepository`:
`SELECT p.* FROM permissions p JOIN role_permissions rp
WHERE rp.role_id = ? AND p.status = 1 ORDER BY p.sort_order, p.id`. -/
def getRolePermissions (s : Store) (rid : Nat) : List Permission :=
  orderBySortId (s.permissions.filter (fun p =>
    p.status == 1 && s.rolePermissions.any (fun rp =>
      rp.1 == rid && rp.2 == p.id)))

/-- Repository-level `assignPermissions`: inside one transaction, delete all
`(roleId, *)` rows of `role_permissions` and insert the new pairs; the commit
makes the replacement visible as a single unit. -/
def assignPermissionsRepo (s : Store) (rid : Nat) (permissionIds : List Nat) : Store :=
  { s with rolePermissions :=
      s.rolePermissions.filter (fun rp => rp.1 != rid)
        ++ permissionIds.map (fun pid => (rid, pid)) }

/-- Service-level `assignPermissions` (`RoleService`): the role must exist and
every listed permission id must exist; a validation failure throws before any
write, and a repository failure rolls the transaction back, so an `.error`
outcome leaves the caller's store untouched. -/
def assignPermissions (s : Store) (rid : Nat) (permissionIds : List Nat) :
    Except String Store :=
  match findRole s rid with
  | none => .error "角色不存在"
  | some _ =>
    match permissionIds.find? (fun pid => (findPermission s pid).isNone) with
    | some pid => .error ("权限ID " ++ toString pid ++ " 不存在")
    | none => .ok (assignPermissionsRepo s rid permissionIds)

/-- Repository-level `assignRoles`: delete all `(userId, *)` rows of
`user_roles` and insert the new pairs, transactionally. -/
def assignRolesRepo (s : Store) (uid : Nat) (roleIds : List Nat) : Store :=
  { s with userRoles :=
      s.userRoles.filter (fun ur => ur.1 != uid)
        ++ roleIds.map (fun rid => (uid, rid)) }

/-- Service-level `assignRoles` (`UserService`): the user must exist and every
listed role id must exist; an `.error` outcome leaves the store untouched. -/
def assignRoles (s : Store) (uid : Nat) (roleIds : List Nat) : Except String Store :=
  match findUser s uid with
  | none => .error "用户不存在"
  | some _ =>
    match roleIds.find? (fun rid => (findRole s rid).isNone) with
    | some rid => .error ("角色ID " ++ toString rid ++ " 不存在")
    | none => .ok (assignRolesRepo s uid roleIds)

/-! ## Permission service (`src/services/PermissionService.js`) -/

/-- Input of `createPermission` (`parent_id || 0` and `sort_order || 0` are
already rendered by using 0 for an absent value). -/
structure PermData where
  name : String
  code : String
  ptype : String
  parent_id : Nat
  path : String
  method : String
  icon : String
  sort_order : Nat
  deriving Repr, DecidableEq

/-- Patch accepted by `updatePermission`; `none` renders an `undefined`
field, which the repository leaves unchanged. -/
structure PermUpdate where
  name : Option String := none
  code : Option String := none
  parent_id : Option Nat := none
  sort_order : Option Nat := none
  status : Option Nat := none
  deriving Repr, DecidableEq

/-- The permissions table together with the auto-increment counter. -/
structure PermState where
  perms : List Permission
  nextId : Nat
  deriving Repr, DecidableEq

/-- `SELECT * FROM permissions WHERE id = ?` over a bare row list. -/
def findPermRow (ps : List Permission) (pid : Nat) : Option Permission :=
  ps.find? (fun p => p.id == pid)

/-- The `INSERT` of `PermissionRepository.create`: the new row takes the
auto-increment id and the enabled default status. -/
def insertPermission (st : PermState) (d : PermData) : PermState :=
  { perms := st.perms ++
      [{ id := st.nextId, name := d.name, code := d.code, ptype := d.ptype,
         parent_id := d.parent_id, path := d.path, method := d.method,
         icon := d.icon, sort_order := d.sort_order, status := 1 }],
    nextId := st.nextId + 1 }

/-- `PermissionService.createPermission`: reject a duplicate code; when a
positive `parent_id` is given, it must reference an existing permission. -/
def createPermission (st : PermState) (d : PermData) : Except String PermState :=
  match st.perms.find? (fun p => p.code == d.code) with
  | some _ => .error "权限代码已存在"
  | none =>
    if 0 < d.parent_id then
      match findPermRow st.perms d.parent_id with
      | none => .error "父权限不存在"
      | some _ => .ok (insertPermission st d)
    else .ok (insertPermission st d)

/-- Apply an update patch to a row (`UPDATE permissions SET ... WHERE id`). -/
def applyPermUpdate (row : Permission) (u : PermUpdate) : Permission :=
  { row with
    name := u.name.getD row.name,
    code := u.code.getD row.code,
    parent_id := u.parent_id.getD row.parent_id,
    sort_order := u.sort_order.getD row.sort_order,
    status := u.status.getD row.status }

/-- `PermissionService.updatePermission`: the permission must exist; when the
patch sets a positive `parent_id`, it must differ from the permission's own id
and reference an existing permission.  (`parent_id = 0` passes unchecked.) -/
def updatePermission (st : PermState) (pid : Nat) (u : PermUpdate) :
    Except String PermState :=
  match findPermRow st.perms pid with
  | none => .error "权限不存在"
  | some _ =>
    let written : PermState :=
      { st with perms := st.perms.map (fun p =>
          if p.id == pid then applyPermUpdate p u else p) }
    match u.parent_id with
    | none => .ok written
    | some newParent =>
      if 0 < newParent then
        if newParent = pid then .error "不能将自己设置为父权限"
        else
          match findPermRow st.perms newParent with
          | none => .error "父权限不存在"
          | some _ => .ok written
      else .ok written

/-- Run a sequence of `createPermission` calls; a call that throws leaves the
state as it was (no partial write). -/
def runCreates (st : PermState) : List PermData → PermState
  | [] => st
  | d :: ds =>
    runCreates (match createPermission st d with | .ok st' => st' | .error _ => st) ds

/-! ### The parent relation -/

/-- The `parent_id` of the (first) row with id `a`, if present. -/
def parentOf (ps : List Permission) (a : Nat) : Option Nat :=
  (findPermRow ps a).map (fun p => p.parent_id)

/-- `k`-fold iteration of the parent relation starting at `a`; `none` once the
chain leaves the table (in particular at a root's `parent_id = 0`, since ids
are never 0). -/
def ancestorK (ps : List Permission) : Nat → Nat → Option Nat
  | 0, a => some a
  | k + 1, a =>
    match parentOf ps a with
    | some b => ancestorK ps k b
    | none => none

/-- The parent relation has no cycle: no positive number of parent steps leads
from an id back to itself.  This is the forest invariant of the data model. -/
def Acyclic (ps : List Permission) : Prop :=
  ∀ a k, ancestorK ps (k + 1) a ≠ some a

/-- Every non-root `parent_id` references an existing row. -/
def ParentsExist (ps : List Permission) : Prop :=
  ∀ p ∈ ps, p.parent_id = 0 ∨ ∃ q ∈ ps, q.id = p.parent_id

/-- Well-formedness of the permissions table as maintained by the service:
acyclic parent relation, live parent references, and all ids below the
auto-increment counter (which is positive). -/
def WFPerm (st : PermState) : Prop :=
  Acyclic st.perms ∧ ParentsExist st.perms ∧
    (∀ p ∈ st.perms, p.id < st.nextId) ∧ 0 < st.nextId

/-! ## Permission tree (`PermissionRepository.buildTree`) -/

/-- A node of the permission tree: the row plus an optional `children` field —
`none` when the recursive collection was empty and the field was therefore
never attached (the tree's shallow serialization omits it). -/
inductive PTree where
  | node (p : Permission) (children : Option (List PTree))

/-- The row carried by a tree node. -/
def PTree.label : PTree → Permission
  | .node p _ => p

/-- The rows carried by the roots of a forest (one level only). -/
def rootLabels (F : List PTree) : List Permission :=
  F.map PTree.label

mutual

/-- Preorder list of the rows of a tree: the node, then its children's rows
recursively.  This is the flattening of a built tree back into a flat list. -/
def treeLabels : PTree → List Permission
  | .node p none => [p]
  | .node p (some cs) => p :: forestLabels cs

/-- Preorder list of the rows of a forest. -/
def forestLabels : List PTree → List Permission
  | [] => []
  | t :: ts => treeLabels t ++ forestLabels ts

end

/-- The ids occurring anywhere in a forest. -/
def forestIds (F : List PTree) : List Nat :=
  (forestLabels F).map (fun p => p.id)

/-- `buildTree(permissions, parentId)` with explicit recursion fuel: collect,
in list order, the rows whose `parent_id` equals `parentId`; each becomes a
node whose `children` field is attached only when the recursive collection is
non-empty.  The JavaScript original has no fuel; `buildTree` below supplies a
bound that is never reached whenever the original recursion terminates. -/
def buildTreeF (ps : List Permission) : Nat → Nat → List PTree
  | 0, _ => []
  | fuel + 1, parentId =>
    (ps.filter (fun p => p.parent_id == parentId)).map (fun p =>
      let children := buildTreeF ps fuel p.id
      PTree.node p (if children.isEmpty then none else some children))

/-- `PermissionRepository.buildTree(permissions, parentId)`.  The fuel
`ps.length + 1` dominates the recursion depth for every input on which the
JavaScript recursion terminates. -/
def buildTree (ps : List Permission) (parentId : Nat) : List PTree :=
  buildTreeF ps (ps.length + 1) parentId

/-- `getPermissionTree`: the enabled rows ordered by `(sort_order, id)`,
passed to `buildTree` with root `parent_id = 0`. -/
def getPermissionTree (s : Store) : List PTree :=
  buildTree (orderBySortId (s.permissions.filter (fun p => p.status == 1))) 0

mutual

/-- The shape predicate of a correctly built node with respect to the flat
list `ps`: the `children` field is absent exactly when `ps` has no row whose
`parent_id` is this node's id; otherwise it is present, non-empty, carries
exactly those rows in list order, and its subtrees satisfy the same
predicate. -/
def TreeOK (ps : List Permission) : PTree → Prop
  | .node p none => ps.filter (fun q => q.parent_id == p.id) = []
  | .node p (some cs) =>
    cs ≠ [] ∧ rootLabels cs = ps.filter (fun q => q.parent_id == p.id) ∧ ForestOK ps cs

/-- `TreeOK` for every tree of a forest. -/
def ForestOK (ps : List Permission) : List PTree → Prop
  | [] => True
  | t :: ts => TreeOK ps t ∧ ForestOK ps ts

end

mutual

/-- Every children list of the tree is ordered by `(sort_order, id)`. -/
def TreeSorted : PTree → Prop
  | .node _ none => True
  | .node _ (some cs) =>
    (rootLabels cs).Pairwise permLEP ∧ ForestSorted cs

/-- `TreeSorted` for every tree of a forest. -/
def ForestSorted : List PTree → Prop
  | [] => True
  | t :: ts => TreeSorted t ∧ ForestSorted ts

end

/-- The ids of a permission list are pairwise distinct (primary-key
invariant of the `permissions` table). -/
def NodupIds (ps : List Permission) : Prop :=
  (ps.map (fun p => p.id)).Nodup

/-- No permission carries id 0 (auto-increment ids start at 1; 0 is the
root marker of `parent_id`). -/
def NoZeroId (ps : List Permission) : Prop :=
  ∀ p ∈ ps, p.id ≠ 0

/-- The parent chain starting at `a` reaches the root marker 0.  Every node
the tree builder ever recurses into is rooted in this sense. -/
def Rooted (ps : List Permission) (a : Nat) : Prop :=
  ∃ m, ancestorK ps m a = some 0

/-- Invariant carried down the recursion of `buildTreeF` from the root call:
`trail` is the set of ids on the path from the root call to the current
`parentId`, each an id of `ps`, pairwise distinct, an ancestor-image of
`parentId`, and the remaining fuel still dominates the rows not yet on the
path. -/
structure TreeInv (ps : List Permission) (f : Nat) (parentId : Nat)
    (trail : List Nat) : Prop where
  rooted : Rooted ps parentId
  nodup : trail.Nodup
  idsIn : ∀ x ∈ trail, ∃ p ∈ ps, p.id = x
  anc : ∀ x ∈ trail, ∃ k, ancestorK ps k parentId = some x
  fuel : ps.length + 1 ≤ f + trail.length

/-! ## Concrete instances used by witnesses and counterexamples -/

/-- A permission row with the fields the claims are about; the remaining
columns take fixed values. -/
def samplePerm (i par so st : Nat) : Permission :=
  { id := i, name := "p" ++ toString i, code := "c" ++ toString i, ptype := "menu",
    parent_id := par, path := "", method := "", icon := "", sort_order := so,
    status := st }

/-- A disabled user (status 0) for the authentication witness. -/
def wUser5 : User := { id := 5, username := "bob", email := "bob@x", status := 0 }

/-- Store holding only the disabled user `wUser5`. -/
def wStore5 : Store :=
  { users := [wUser5], roles := [], permissions := [], userRoles := [],
    rolePermissions := [] }

/-- Claims decoded from a token that still verifies for user 5. -/
def wClaims5 : JwtClaims := { id := 5, username := "bob", email := "bob@x" }

/-- A verifier that accepts every token as user 5 (signature, issuer and
expiry all pass). -/
def wVerify5 : List Char → Except String JwtClaims := fun _ => .ok wClaims5

/-- An `Authorization` header with the `Bearer ` prefix. -/
def wHeader5 : List Char := bearerChars ++ ['t', 'o', 'k']

/-- An enabled user for the bare-token witness. -/
def wUser7 : User := { id := 7, username := "eve", email := "eve@x", status := 1 }

/-- Store holding only the enabled user `wUser7`. -/
def wStore7 : Store :=
  { users := [wUser7], roles := [], permissions := [], userRoles := [],
    rolePermissions := [] }

/-- Claims decoded for user 7. -/
def wClaims7 : JwtClaims := { id := 7, username := "eve", email := "eve@x" }

/-- A verifier that accepts every token as user 7. -/
def wVerify7 : List Char → Except String JwtClaims := fun _ => .ok wClaims7

/-- A bare header value with no `Bearer ` prefix at all. -/
def wHeader7 : List Char := ['a', 'b', 'c']

/-- A disabled role granting an enabled permission: only the raw-SQL
`getUserPermissions` returns that permission. -/
def storeC1x : Store :=
  { users := [{ id := 1, username := "alice", email := "a@x", status := 1 }],
    roles := [{ id := 10, name := "r10", code := "r10", status := 0 }],
    permissions := [samplePerm 100 0 0 1],
    userRoles := [(1, 10)], rolePermissions := [(10, 100)] }

/-- Two enabled roles granting the same enabled permission, for the C1
witness. -/
def storeC1w : Store :=
  { users := [{ id := 1, username := "alice", email := "a@x", status := 1 }],
    roles := [{ id := 2, name := "r2", code := "r2", status := 1 },
              { id := 3, name := "r3", code := "r3", status := 1 }],
    permissions := [samplePerm 4 0 0 1],
    userRoles := [(1, 2), (1, 3)], rolePermissions := [(2, 4), (3, 4)] }

/-- A store whose permission 2 is disabled, for the C4 round-trip
counterexample (role 1 exists; a stale association row is present). -/
def storeC4x : Store :=
  { users := [], roles := [{ id := 1, name := "r1", code := "r1", status := 1 }],
    permissions := [samplePerm 1 0 0 1, samplePerm 2 0 0 0, samplePerm 3 0 0 1],
    userRoles := [], rolePermissions := [(1, 99)] }

/-- First permission created in the C2 cycle scenario (a root). -/
def c2data1 : PermData :=
  { name := "n1", code := "a", ptype := "menu", parent_id := 0, path := "",
    method := "", icon := "", sort_order := 0 }

/-- Second permission created in the C2 cycle scenario (child of the first). -/
def c2data2 : PermData :=
  { name := "n2", code := "b", ptype := "menu", parent_id := 1, path := "",
    method := "", icon := "", sort_order := 0 }

/-- Create a root permission (id 1), create a child of it (id 2), then update
permission 1 to have permission 2 as its parent; every step passes the
service's validation. -/
def c2Run : Except String PermState :=
  (createPermission { perms := [], nextId := 1 } c2data1).bind (fun s1 =>
    (createPermission s1 c2data2).bind (fun s2 =>
      updatePermission s2 1 { parent_id := some 2 }))

/-- The permissions table after the C2 scenario. -/
def c2FinalPerms : List Permission :=
  match c2Run with
  | .ok st => st.perms
  | .error _ => []

/-- Whether a permission-service call succeeded. -/
def isOkPerm : Except String PermState → Bool :=
  fun e => match e with | .ok _ => true | .error _ => false

/-- A one-row well-formed permission table for the C2 witness. -/
def wPermState : PermState := { perms := [samplePerm 1 0 0 1], nextId := 2 }

/-- A flat list with a duplicated id 1: both copies are roots and both adopt
the id-2 row as child, so flattening the built tree duplicates that row. -/
def psC9x : List Permission :=
  [samplePerm 1 0 0 1, samplePerm 1 0 1 1, samplePerm 2 1 2 1]

/-- A well-formed sorted enabled list (a root with one child and a second
root) for the C3 and C9 witnesses. -/
def psC3w : List Permission :=
  [samplePerm 1 0 0 1, samplePerm 2 1 1 1, samplePerm 3 0 2 1]

/-- A store for the C4 witness: one user, two roles, two enabled
permissions, and stale associations on both sides. -/
def storeC4w : Store :=
  { users := [{ id := 1, username := "alice", email := "a@x", status := 1 }],
    roles := [{ id := 1, name := "r1", code := "r1", status := 1 },
              { id := 2, name := "r2", code := "r2", status := 1 }],
    permissions := [samplePerm 1 0 0 1, samplePerm 2 0 1 1],
    userRoles := [(1, 9)], rolePermissions := [(1, 7)] }

/-! ## Helper lemmas on token extraction -/

theorem stripFirst_append (pat v : List Char) (hp : pat ≠ []) :
    stripFirst pat (pat ++ v) = v := by
  match pat, hp with
  | c :: rest, _ =>
    rw [List.cons_append, stripFirst,
      if_pos (List.isPrefixOf_iff_prefix.mpr ⟨v, by simp⟩), ← List.cons_append]
    exact List.drop_left _ _

theorem containsSub_cons (pat : List Char) (c : Char) (rest : List Char) :
    containsSub pat (c :: rest) = (pat.isPrefixOf (c :: rest) || containsSub pat rest) := by
  simp [containsSub, List.tails]

theorem stripFirst_no_occurrence (pat : List Char) :
    ∀ l : List Char, containsSub pat l = false → stripFirst pat l = l := by
  intro l
  induction l with
  | nil => intro _; rfl
  | cons c rest ih =>
    intro h
    rw [containsSub_cons, Bool.or_eq_false_iff] at h
    rw [stripFirst, if_neg (by simp [h.1]), ih h.2]

/-! ## Claim theorems: authentication -/

theorem authenticate_some_eval (s : Store) (hv : List Char)
    (verify : List Char → Except String JwtClaims)
    (hne : (stripFirst bearerChars hv).isEmpty = false) :
    authenticate s (some hv) verify =
      match verify (stripFirst bearerChars hv) with
      | .error _ => .reject "认证失败" 401
      | .ok decoded =>
        match findUser s decoded.id with
        | none => .reject "用户不存在" 401
        | some user =>
          if user.status = 0 then .reject "用户已被禁用" 401 else .proceed user := by
  simp only [authenticate, hne, Bool.false_eq_true, if_false]

theorem stripFirst_isEmpty_false (hv : List Char) (htok : stripFirst bearerChars hv ≠ []) :
    (stripFirst bearerChars hv).isEmpty = false := by
  cases hstrip : stripFirst bearerChars hv with
  | nil => exact absurd hstrip htok
  | cons a l => rfl

/-- **C5**: whenever the bearer token itself verifies (the `verify` call
returns decoded claims), `authenticate` still answers 401 when the embedded
user id is absent from the store or the user is disabled (`status = 0`), and
the downstream handler can only be reached with an existing, non-disabled
user: credential validity never overrides a disabled status. -/
theorem c5_disabled_user_rejected
    (s : Store) (hv : List Char) (verify : List Char → Except String JwtClaims)
    (decoded : JwtClaims)
    (hverify : verify (stripFirst bearerChars hv) = .ok decoded)
    (htok : stripFirst bearerChars hv ≠ []) :
    (findUser s decoded.id = none →
      authenticate s (some hv) verify = .reject "用户不存在" 401) ∧
    (∀ u, findUser s decoded.id = some u → u.status = 0 →
      authenticate s (some hv) verify = .reject "用户已被禁用" 401) ∧
    (∀ u2, authenticate s (some hv) verify = .proceed u2 →
      findUser s decoded.id = some u2 ∧ u2.status ≠ 0) := by
  have hne := stripFirst_isEmpty_false hv htok
  rw [authenticate_some_eval s hv verify hne, hverify]
  refine ⟨?_, ?_, ?_⟩
  · intro hmiss
    simp only [hmiss]
  · intro u hfind hstatus
    simp only [hfind, if_pos hstatus]
  · intro u2 hproc
    cases hfind : findUser s decoded.id with
    | none =>
      simp only [hfind] at hproc
      exact absurd hproc (by simp)
    | some u =>
      simp only [hfind] at hproc
      by_cases hst : u.status = 0
      · rw [if_pos hst] at hproc
        exact absurd hproc (by simp)
      · rw [if_neg hst] at hproc
        cases hproc
        exact ⟨rfl, hst⟩

/-- Witness for C5 at a concrete disabled user with a valid token. -/
theorem c5_disabled_user_rejected_witness :
    authenticate wStore5 (some wHeader5) wVerify5 = .reject "用户已被禁用" 401 :=
  (c5_disabled_user_rejected wStore5 wHeader5 wVerify5 wClaims5 rfl
    (by decide)).2.1 wUser5 rfl rfl

/-- **C10**: token extraction strips only the first occurrence of
`"Bearer "` and uses the remainder verbatim; the format-error rejection
happens exactly when the value is empty after stripping (and the
missing-header rejection exactly when the header is absent), so a bare token
without any `Bearer ` prefix is passed to verification unchanged and is
accepted when it verifies against an existing enabled user. -/
theorem c10_bearer_prefix_optional
    (s : Store) (verify : List Char → Except String JwtClaims) :
    (authenticate s none verify = .reject "缺少认证令牌" 401) ∧
    (∀ hv, authenticate s (some hv) verify = .reject "认证令牌格式错误" 401 ↔
      stripFirst bearerChars hv = []) ∧
    (∀ v, stripFirst bearerChars (bearerChars ++ v) = v) ∧
    (∀ hv decoded u, containsSub bearerChars hv = false → hv ≠ [] →
      verify hv = .ok decoded → findUser s decoded.id = some u → u.status ≠ 0 →
      authenticate s (some hv) verify = .proceed u) := by
  refine ⟨rfl, ?_, ?_, ?_⟩
  · intro hv
    constructor
    · intro hrej
      by_cases hs : stripFirst bearerChars hv = []
      · exact hs
      · exfalso
        have hne := stripFirst_isEmpty_false hv hs
        rw [authenticate_some_eval s hv verify hne] at hrej
        cases hverify : verify (stripFirst bearerChars hv) with
        | error e =>
          simp only [hverify] at hrej
          exact absurd hrej (by decide)
        | ok decoded =>
          simp only [hverify] at hrej
          cases hfind : findUser s decoded.id with
          | none =>
            simp only [hfind] at hrej
            exact absurd hrej (by decide)
          | some u =>
            simp only [hfind] at hrej
            by_cases hst : u.status = 0
            · rw [if_pos hst] at hrej
              exact absurd hrej (by decide)
            · rw [if_neg hst] at hrej
              exact absurd hrej (by simp)
    · intro hs
      have hemp : (stripFirst bearerChars hv).isEmpty = true := by
        rw [hs]; rfl
      simp only [authenticate, hemp, if_true]
  · intro v
    exact stripFirst_append bearerChars v (by decide)
  · intro hv decoded u hnooc hvne hverify hfind hst
    have hs : stripFirst bearerChars hv = hv :=
      stripFirst_no_occurrence bearerChars hv hnooc
    have hne : (stripFirst bearerChars hv).isEmpty = false := by
      rw [hs]
      cases hv with
      | nil => exact absurd rfl hvne
      | cons a l => rfl
    rw [authenticate_some_eval s hv verify hne, hs, hverify]
    simp only [hfind, if_neg hst]

/-- Witness for C10: a bare three-character token with no prefix proceeds. -/
theorem c10_bearer_prefix_optional_witness :
    authenticate wStore7 (some wHeader7) wVerify7 = .proceed wUser7 :=
  (c10_bearer_prefix_optional wStore7 wVerify7).2.2.2 wHeader7 wClaims7 wUser7
    (by decide) (by decide) rfl rfl (by decide)

/-! ## Claim theorems: rate limiting -/

/-- **C8**: when any internal operation of a rate-limiter middleware throws
(`.error e`), both the `createRateLimiter` middleware and the standalone
`rateLimit` middleware swallow the error and still invoke the downstream
handler, leaving the counter state untouched: infrastructure failures never
deny a request. -/
theorem c8_rate_limiter_fails_open :
    ∀ (st : CounterStore) (message e : String) (maxReq : Nat),
      createRateLimiter st message (.error e) = (.proceeded, st) ∧
      rateLimitMw maxReq (.error e) = .proceeded := by
  intro st message e maxReq
  exact ⟨rfl, rfl⟩

/-- **C6**: the fixed-window limiter buckets by `{scope}:{floor(now/window)}`,
increments that bucket's counter, records the window as its TTL, and allows
the request exactly when the incremented count is at most the limit; the
middleware denies with HTTP 429 otherwise.  With `max = 5` and a 60-second
window, five requests inside one window pass, the sixth is denied, and a
request after the window rolls over passes again. -/
theorem c6_fixed_window (st : CounterStore) (key kg : String)
    (limit windowMs now : Nat) :
    ∀ window, 0 < window →
    (((fixedWindowRateLimit st key limit window now).1.allowed = true ↔
      getCount st (windowKey key window now) + 1 ≤ limit) ∧
    (fixedWindowRateLimit st key limit window now).1.count
      = getCount st (windowKey key window now) + 1 ∧
    getCount (fixedWindowRateLimit st key limit window now).2 (windowKey key window now)
      = getCount st (windowKey key window now) + 1 ∧
    getTtl (fixedWindowRateLimit st key limit window now).2 (windowKey key window now)
      = some window ∧
    ((fixedWindowMiddleware st kg windowMs limit now).1 = .proceeded ↔
      getCount st (windowKey ("rate_limit:" ++ kg) (windowMs / 1000) now) + 1 ≤ limit) ∧
    (¬ (getCount st (windowKey ("rate_limit:" ++ kg) (windowMs / 1000) now) + 1 ≤ limit) →
      (fixedWindowMiddleware st kg windowMs limit now).1
        = .denied "请求过于频繁，请稍后再试" 429) ∧
    fixedWindowRun emptyCounters "ip" 60000 5 [1, 2, 3, 4, 5, 55, 61]
      = [true, true, true, true, true, false, true]) := by
  intro window _hw
  refine ⟨by simp [fixedWindowRateLimit], rfl, ?_, ?_, ?_, ?_, by decide⟩
  · simp [fixedWindowRateLimit, getCount]
  · simp [fixedWindowRateLimit, getTtl]
  · by_cases hallow : getCount st (windowKey ("rate_limit:" ++ kg) (windowMs / 1000) now) + 1 ≤ limit
    · simp [fixedWindowMiddleware, createRateLimiter, fixedWindowRateLimit, hallow]
    · simp [fixedWindowMiddleware, createRateLimiter, fixedWindowRateLimit, hallow]
  · intro hallow
    simp [fixedWindowMiddleware, createRateLimiter, fixedWindowRateLimit, hallow]

/-- Witness for C6 at a concrete store, 5-per-60-seconds, time 59. -/
theorem c6_fixed_window_witness :
    0 < 60 ∧ (fixedWindowRateLimit emptyCounters "k" 5 60 59).1.count
      = getCount emptyCounters (windowKey "k" 60 59) + 1 :=
  ⟨by decide, ((c6_fixed_window emptyCounters "k" "ip" 5 60000 59) 60 (by decide)).2.1⟩

/-- **C7**: the token-bucket limiter reads the stored hash with
`parseFloat(x) || default`, and `parseFloat` of a stored `"0"` is falsy, so a
bucket drained to exactly zero tokens is read back as a full bucket.  In the
claimed scenario (capacity 10, refill 1/s, ten instant requests, one a second
later, one immediately after) the code therefore allows all twelve requests,
while the spec's token bucket denies the twelfth. -/
theorem c7_token_bucket_zero_reset :
    tokenBucketRun 10 1 none [100, 100, 100, 100, 100, 100, 100, 100, 100, 100, 101, 101]
      = List.replicate 12 true ∧
    specTokenBucketRun 10 1 none [100, 100, 100, 100, 100, 100, 100, 100, 100, 100, 101, 101]
      = List.replicate 11 true ++ [false] := by
  constructor
  · norm_num [tokenBucketRun, tokenBucketRateLimit, List.replicate]
  · norm_num [specTokenBucketRun, specTokenBucket, List.replicate]

/-! ## Helper lemmas on deduplication and ordering -/

theorem mem_of_mem_dedupByIdAux :
    ∀ (l : List Permission) (seen : List Nat) (q : Permission),
      q ∈ dedupByIdAux seen l → q ∈ l := by
  intro l
  induction l with
  | nil => intro seen q h; simp [dedupByIdAux] at h
  | cons p rest ih =>
    intro seen q h
    rw [dedupByIdAux] at h
    by_cases hp : p.id ∈ seen
    · rw [if_pos hp] at h
      exact List.mem_cons_of_mem p (ih seen q h)
    · rw [if_neg hp] at h
      rcases List.mem_cons.mp h with rfl | h2
      · exact List.mem_cons_self _ _
      · exact List.mem_cons_of_mem p (ih _ q h2)

theorem mem_dedupByIdAux_of_mem :
    ∀ (l : List Permission) (seen : List Nat),
      (∀ a ∈ l, ∀ b ∈ l, a.id = b.id → a = b) →
      ∀ q ∈ l, q.id ∉ seen → q ∈ dedupByIdAux seen l := by
  intro l
  induction l with
  | nil => intro seen _ q hq _; simp at hq
  | cons p rest ih =>
    intro seen hinj q hq hseen
    have hrest : ∀ a ∈ rest, ∀ b ∈ rest, a.id = b.id → a = b := fun a ha b hb =>
      hinj a (List.mem_cons_of_mem p ha) b (List.mem_cons_of_mem p hb)
    rw [dedupByIdAux]
    by_cases hp : p.id ∈ seen
    · rw [if_pos hp]
      rcases List.mem_cons.mp hq with rfl | h2
      · exact absurd hp hseen
      · exact ih seen hrest q h2 hseen
    · rw [if_neg hp]
      rcases List.mem_cons.mp hq with rfl | h2
      · exact List.mem_cons_self _ _
      · by_cases hid : q.id = p.id
        · have hqp : q = p :=
            hinj q (List.mem_cons_of_mem p h2) p (List.mem_cons_self p rest) hid
          rw [hqp]
          exact List.mem_cons_self _ _
        · refine List.mem_cons_of_mem p (ih (p.id :: seen) hrest q h2 ?_)
          intro hmem
          rcases List.mem_cons.mp hmem with h3 | h3
          · exact hid h3
          · exact hseen h3

theorem nodup_dedupByIdAux :
    ∀ (l : List Permission) (seen : List Nat),
      ((dedupByIdAux seen l).map (fun p => p.id)).Nodup ∧
        ∀ q ∈ dedupByIdAux seen l, q.id ∉ seen := by
  intro l
  induction l with
  | nil =>
    intro seen
    refine ⟨by simp [dedupByIdAux], ?_⟩
    intro q h
    simp [dedupByIdAux] at h
  | cons p rest ih =>
    intro seen
    rw [dedupByIdAux]
    by_cases hp : p.id ∈ seen
    · rw [if_pos hp]; exact ih seen
    · rw [if_neg hp]
      obtain ⟨ihn, ihs⟩ := ih (p.id :: seen)
      refine ⟨?_, ?_⟩
      · simp only [List.map_cons, List.nodup_cons]
        refine ⟨?_, ihn⟩
        intro hmem
        rcases List.mem_map.mp hmem with ⟨q, hq, hid⟩
        exact (ihs q hq) (by rw [hid]; exact List.mem_cons_self _ _)
      · intro q hq
        rcases List.mem_cons.mp hq with rfl | h2
        · exact hp
        · intro hqs
          exact (ihs q h2) (List.mem_cons_of_mem _ hqs)

theorem mem_orderBySortId (l : List Permission) (q : Permission) :
    q ∈ orderBySortId l ↔ q ∈ l :=
  List.mem_insertionSort permLEP

theorem idInj_of_nodup {l : List Permission} (h : (l.map (fun p => p.id)).Nodup) :
    ∀ a ∈ l, ∀ b ∈ l, a.id = b.id → a = b :=
  fun _ ha _ hb hab => List.inj_on_of_nodup_map h ha hb hab

/-! ## Membership characterizations of the permission queries -/

theorem mem_sqlGetUserPermissions (s : Store) (uid : Nat)
    (hnodup : (s.permissions.map (fun p => p.id)).Nodup) (p : Permission) :
    p ∈ sqlGetUserPermissions s uid ↔
      p ∈ s.permissions ∧ p.status = 1 ∧
        ∃ rid, (uid, rid) ∈ s.userRoles ∧ (rid, p.id) ∈ s.rolePermissions := by
  have hsub : ∀ x ∈ orderBySortId (s.permissions.filter (fun p =>
      p.status == 1 && s.rolePermissions.any (fun rp =>
        rp.2 == p.id && s.userRoles.any (fun ur =>
          ur.1 == uid && ur.2 == rp.1)))), x ∈ s.permissions := by
    intro x hx
    exact (List.mem_filter.mp ((mem_orderBySortId _ _).mp hx)).1
  have hinj := idInj_of_nodup hnodup
  constructor
  · intro h
    have hmem := mem_of_mem_dedupByIdAux _ _ _ h
    obtain ⟨hpmem, hcond⟩ := List.mem_filter.mp ((mem_orderBySortId _ _).mp hmem)
    simp only [Bool.and_eq_true, beq_iff_eq, List.any_eq_true] at hcond
    obtain ⟨hstat, rp, hrp, hrpid, ur, hur, huru, hurr⟩ := hcond
    refine ⟨hpmem, hstat, rp.1, ?_, ?_⟩
    · have h1 : ((uid, rp.1) : Nat × Nat) = ur := Prod.ext_iff.mpr ⟨huru.symm, hurr.symm⟩
      rw [h1]; exact hur
    · have h1 : ((rp.1, p.id) : Nat × Nat) = rp := Prod.ext_iff.mpr ⟨rfl, hrpid.symm⟩
      rw [h1]; exact hrp
  · rintro ⟨hpmem, hstat, rid, hur, hrp⟩
    refine mem_dedupByIdAux_of_mem _ []
      (fun a ha b hb => hinj a (hsub a ha) b (hsub b hb)) p ?_ (by simp)
    refine (mem_orderBySortId _ _).mpr (List.mem_filter.mpr ⟨hpmem, ?_⟩)
    simp only [Bool.and_eq_true, beq_iff_eq, List.any_eq_true]
    exact ⟨hstat, (rid, p.id), hrp, rfl, (uid, rid), hur, rfl, rfl⟩

theorem mem_seqGetUserPermissions (s : Store) (uid : Nat)
    (hnodup : (s.permissions.map (fun p => p.id)).Nodup)
    (hu : ∃ u0, findUser s uid = some u0) (p : Permission) :
    p ∈ seqGetUserPermissions s uid ↔
      p ∈ s.permissions ∧ p.status = 1 ∧
        ∃ r ∈ s.roles, r.status = 1 ∧ (uid, r.id) ∈ s.userRoles ∧
          (r.id, p.id) ∈ s.rolePermissions := by
  obtain ⟨u0, hu0⟩ := hu
  have hinj := idInj_of_nodup hnodup
  unfold seqGetUserPermissions
  rw [hu0]
  have hsub : ∀ x ∈ (s.roles.filter (fun r =>
      r.status == 1 && s.userRoles.any (fun ur =>
        ur.1 == uid && ur.2 == r.id))).flatMap (fun r =>
          s.permissions.filter (fun p =>
            p.status == 1 && s.rolePermissions.any (fun rp =>
              rp.1 == r.id && rp.2 == p.id))), x ∈ s.permissions := by
    intro x hx
    obtain ⟨r, _, hxr⟩ := List.mem_flatMap.mp hx
    exact (List.mem_filter.mp hxr).1
  constructor
  · intro h
    have hmem := mem_of_mem_dedupByIdAux _ _ _ h
    obtain ⟨r, hrmem, hpr⟩ := List.mem_flatMap.mp hmem
    obtain ⟨hrroles, hrcond⟩ := List.mem_filter.mp hrmem
    obtain ⟨hpmem, hpcond⟩ := List.mem_filter.mp hpr
    simp only [Bool.and_eq_true, beq_iff_eq, List.any_eq_true] at hrcond hpcond
    obtain ⟨hrstat, ur, hur, huru, hurr⟩ := hrcond
    obtain ⟨hpstat, rp, hrp, hrpr, hrpp⟩ := hpcond
    refine ⟨hpmem, hpstat, r, hrroles, hrstat, ?_, ?_⟩
    · have h1 : ((uid, r.id) : Nat × Nat) = ur := Prod.ext_iff.mpr ⟨huru.symm, hurr.symm⟩
      rw [h1]; exact hur
    · have h1 : ((r.id, p.id) : Nat × Nat) = rp := Prod.ext_iff.mpr ⟨hrpr.symm, hrpp.symm⟩
      rw [h1]; exact hrp
  · rintro ⟨hpmem, hstat, r, hrmem, hrstat, hur, hrp⟩
    refine mem_dedupByIdAux_of_mem _ []
      (fun a ha b hb => hinj a (hsub a ha) b (hsub b hb)) p ?_ (by simp)
    refine List.mem_flatMap.mpr ⟨r, List.mem_filter.mpr ⟨hrmem, ?_⟩,
      List.mem_filter.mpr ⟨hpmem, ?_⟩⟩
    · simp only [Bool.and_eq_true, beq_iff_eq, List.any_eq_true]
      exact ⟨hrstat, (uid, r.id), hur, rfl, rfl⟩
    · simp only [Bool.and_eq_true, beq_iff_eq, List.any_eq_true]
      exact ⟨hstat, (r.id, p.id), hrp, rfl, rfl⟩

theorem mem_getRolePermissions (s : Store) (rid : Nat) (p : Permission) :
    p ∈ getRolePermissions s rid ↔
      p ∈ s.permissions ∧ p.status = 1 ∧ (rid, p.id) ∈ s.rolePermissions := by
  unfold getRolePermissions
  rw [mem_orderBySortId, List.mem_filter]
  simp only [Bool.and_eq_true, beq_iff_eq, List.any_eq_true]
  constructor
  · rintro ⟨hpmem, hstat, rp, hrp, hrpr, hrpp⟩
    refine ⟨hpmem, hstat, ?_⟩
    have h1 : ((rid, p.id) : Nat × Nat) = rp := Prod.ext_iff.mpr ⟨hrpr.symm, hrpp.symm⟩
    rw [h1]; exact hrp
  · rintro ⟨hpmem, hstat, hrp⟩
    exact ⟨hpmem, hstat, (rid, p.id), hrp, rfl, rfl⟩

/-! ## Claim theorems: permission resolution and assignment -/

/-- **C1** (amended): both implementations deduplicate by permission id and
keep only enabled permissions, but only the Sequelize `getUserPermissions`
restricts to enabled roles; the raw-SQL variant returns every enabled
permission granted through *any* role assignment of the user, enabled or not. -/
theorem c1_user_permissions (s : Store) (uid : Nat)
    (hnodup : (s.permissions.map (fun p => p.id)).Nodup)
    (hu : ∃ u0, findUser s uid = some u0) :
    (∀ p, p ∈ seqGetUserPermissions s uid ↔
      p ∈ s.permissions ∧ p.status = 1 ∧
        ∃ r ∈ s.roles, r.status = 1 ∧ (uid, r.id) ∈ s.userRoles ∧
          (r.id, p.id) ∈ s.rolePermissions) ∧
    (∀ p, p ∈ sqlGetUserPermissions s uid ↔
      p ∈ s.permissions ∧ p.status = 1 ∧
        ∃ rid, (uid, rid) ∈ s.userRoles ∧ (rid, p.id) ∈ s.rolePermissions) ∧
    ((seqGetUserPermissions s uid).map (fun p => p.id)).Nodup ∧
    ((sqlGetUserPermissions s uid).map (fun p => p.id)).Nodup := by
  obtain ⟨u0, hu0⟩ := hu
  refine ⟨fun p => mem_seqGetUserPermissions s uid hnodup ⟨u0, hu0⟩ p,
    fun p => mem_sqlGetUserPermissions s uid hnodup p, ?_, ?_⟩
  · unfold seqGetUserPermissions
    rw [hu0]
    exact (nodup_dedupByIdAux _ []).1
  · exact (nodup_dedupByIdAux _ []).1

/-- Witness for C1: two enabled roles granting the same enabled permission
yield a single entry. -/
theorem c1_user_permissions_witness :
    samplePerm 4 0 0 1 ∈ seqGetUserPermissions storeC1w 1 ∧
    ((seqGetUserPermissions storeC1w 1).map (fun p => p.id)).Nodup :=
  ⟨((c1_user_permissions storeC1w 1 (by decide) ⟨_, rfl⟩).1 _).mpr
    ⟨by decide, by decide,
      { id := 2, name := "r2", code := "r2", status := 1 }, by decide, by decide,
      by decide, by decide⟩,
   (c1_user_permissions storeC1w 1 (by decide) ⟨_, rfl⟩).2.2.1⟩

/-- Counterexample for C1 as stated: in `storeC1x` the only role of user 1 is
disabled, so the claimed effective permission set (reachable through enabled
role assignments) is empty, yet the raw-SQL `getUserPermissions` still
returns the permission; the Sequelize variant returns the empty set. -/
theorem c1_counterexample :
    sqlGetUserPermissions storeC1x 1 = [samplePerm 100 0 0 1] ∧
    seqGetUserPermissions storeC1x 1 = [] ∧
    ∀ r ∈ storeC1x.roles, r.status ≠ 1 := by
  refine ⟨by decide, by decide, by decide⟩

/-- **C4** (amended): assignment is full set-replacement — afterwards the
association rows of the target are exactly the given id set (assigning `[]`
removes every prior association), other owners' rows are untouched, and a
validation failure produces an error (leaving the store as it was, the
transaction having rolled back).  The round-trip read
`getRolePermissions(roleId)` returns exactly the *enabled* permissions among
the assigned ids — a disabled permission in the set is filtered out of the
read-back. -/
theorem c4_assignment_replacement (s : Store) (uid rid : Nat)
    (roleIds permIds : List Nat)
    (hu : ∃ u0, findUser s uid = some u0)
    (hr : ∃ r0, findRole s rid = some r0)
    (hroles : ∀ i ∈ roleIds, ∃ r, findRole s i = some r)
    (hperms : ∀ i ∈ permIds, ∃ p, findPermission s i = some p) :
    (assignRoles s uid roleIds = .ok (assignRolesRepo s uid roleIds)) ∧
    (∀ u2 r2, (u2, r2) ∈ (assignRolesRepo s uid roleIds).userRoles ↔
      ((u2 = uid ∧ r2 ∈ roleIds) ∨ (u2 ≠ uid ∧ (u2, r2) ∈ s.userRoles))) ∧
    (assignPermissions s rid permIds = .ok (assignPermissionsRepo s rid permIds)) ∧
    (∀ r2 p2, (r2, p2) ∈ (assignPermissionsRepo s rid permIds).rolePermissions ↔
      ((r2 = rid ∧ p2 ∈ permIds) ∨ (r2 ≠ rid ∧ (r2, p2) ∈ s.rolePermissions))) ∧
    (∀ pid, pid ∈ (getRolePermissions (assignPermissionsRepo s rid permIds) rid).map
        (fun p => p.id) ↔
      (pid ∈ permIds ∧ ∃ p ∈ s.permissions, p.id = pid ∧ p.status = 1)) ∧
    (∀ ids2, (∃ i ∈ ids2, findRole s i = none) →
      ∃ msg, assignRoles s uid ids2 = .error msg) ∧
    (∀ ids2, (∃ i ∈ ids2, findPermission s i = none) →
      ∃ msg, assignPermissions s rid ids2 = .error msg) := by
  obtain ⟨u0, hu0⟩ := hu
  obtain ⟨r0, hr0⟩ := hr
  have hurmem : ∀ u2 r2, (u2, r2) ∈ (assignRolesRepo s uid roleIds).userRoles ↔
      ((u2 = uid ∧ r2 ∈ roleIds) ∨ (u2 ≠ uid ∧ (u2, r2) ∈ s.userRoles)) := by
    intro u2 r2
    simp only [assignRolesRepo, List.mem_append, List.mem_filter, List.mem_map,
      bne_iff_ne, ne_eq, Prod.mk.injEq]
    constructor
    · rintro (⟨hmem, hne⟩ | ⟨i, hi, hui, hri⟩)
      · exact Or.inr ⟨by simpa using hne, hmem⟩
      · exact Or.inl ⟨hui.symm, hri ▸ hi⟩
    · rintro (⟨rfl, hmem⟩ | ⟨hne, hmem⟩)
      · exact Or.inr ⟨r2, hmem, rfl, rfl⟩
      · exact Or.inl ⟨hmem, by simpa using hne⟩
  have hrpmem : ∀ r2 p2, (r2, p2) ∈ (assignPermissionsRepo s rid permIds).rolePermissions ↔
      ((r2 = rid ∧ p2 ∈ permIds) ∨ (r2 ≠ rid ∧ (r2, p2) ∈ s.rolePermissions)) := by
    intro r2 p2
    simp only [assignPermissionsRepo, List.mem_append, List.mem_filter, List.mem_map,
      bne_iff_ne, ne_eq, Prod.mk.injEq]
    constructor
    · rintro (⟨hmem, hne⟩ | ⟨i, hi, hri, hpi⟩)
      · exact Or.inr ⟨by simpa using hne, hmem⟩
      · exact Or.inl ⟨hri.symm, hpi ▸ hi⟩
    · rintro (⟨rfl, hmem⟩ | ⟨hne, hmem⟩)
      · exact Or.inr ⟨p2, hmem, rfl, rfl⟩
      · exact Or.inl ⟨hmem, by simpa using hne⟩
  refine ⟨?_, hurmem, ?_, hrpmem, ?_, ?_, ?_⟩
  · unfold assignRoles
    rw [hu0]
    have : roleIds.find? (fun i => (findRole s i).isNone) = none := by
      rw [List.find?_eq_none]
      intro i hi
      obtain ⟨r, hri⟩ := hroles i hi
      simp [hri]
    rw [this]
  · unfold assignPermissions
    rw [hr0]
    have : permIds.find? (fun i => (findPermission s i).isNone) = none := by
      rw [List.find?_eq_none]
      intro i hi
      obtain ⟨p, hpi⟩ := hperms i hi
      simp [hpi]
    rw [this]
  · intro pid
    constructor
    · intro h
      obtain ⟨p, hp, hpid⟩ := List.mem_map.mp h
      obtain ⟨hpmem, hstat, hrp⟩ := (mem_getRolePermissions _ rid p).mp hp
      have hpid2 : (rid, p.id) ∈ (assignPermissionsRepo s rid permIds).rolePermissions := hrp
      rcases (hrpmem rid p.id).mp hpid2 with ⟨_, hin⟩ | ⟨hne, _⟩
      · exact ⟨hpid ▸ hin, p, hpmem, hpid, hstat⟩
      · exact absurd rfl hne
    · rintro ⟨hin, p, hpmem, hpid, hstat⟩
      refine List.mem_map.mpr ⟨p, ?_, hpid⟩
      refine (mem_getRolePermissions _ rid p).mpr ⟨hpmem, hstat, ?_⟩
      exact (hrpmem rid p.id).mpr (Or.inl ⟨rfl, hpid ▸ hin⟩)
  · rintro ids2 ⟨i, hi, hnone⟩
    unfold assignRoles
    rw [hu0]
    cases hfind : ids2.find? (fun i => (findRole s i).isNone) with
    | none =>
      exfalso
      exact (List.find?_eq_none.mp hfind i hi) (by simp [hnone])
    | some bad => exact ⟨_, rfl⟩
  · rintro ids2 ⟨i, hi, hnone⟩
    unfold assignPermissions
    rw [hr0]
    cases hfind : ids2.find? (fun i => (findPermission s i).isNone) with
    | none =>
      exfalso
      exact (List.find?_eq_none.mp hfind i hi) (by simp [hnone])
    | some bad => exact ⟨_, rfl⟩

/-- Witness for C4 at a concrete store with stale associations. -/
theorem c4_assignment_replacement_witness :
    assignRoles storeC4w 1 [2] = .ok (assignRolesRepo storeC4w 1 [2]) :=
  (c4_assignment_replacement storeC4w 1 1 [2] [1, 2] ⟨_, rfl⟩ ⟨_, rfl⟩
    (by intro i hi; rw [List.mem_singleton] at hi; subst hi; exact ⟨_, rfl⟩)
    (by
      intro i hi
      rcases List.mem_cons.mp hi with rfl | hi2
      · exact ⟨_, rfl⟩
      · rw [List.mem_singleton] at hi2; subst hi2; exact ⟨_, rfl⟩)).1

/-- Counterexample for C4 as stated: assigning `[1, 2, 3]` (all existing)
where permission 2 is disabled succeeds, but the round-trip read returns only
ids `[1, 3]`, not `{1, 2, 3}`. -/
theorem c4_counterexample :
    assignPermissions storeC4x 1 [1, 2, 3]
      = .ok (assignPermissionsRepo storeC4x 1 [1, 2, 3]) ∧
    (getRolePermissions (assignPermissionsRepo storeC4x 1 [1, 2, 3]) 1).map
      (fun p => p.id) = [1, 3] := by
  refine ⟨rfl, by decide⟩

/-! ## Helper lemmas on the parent relation -/

theorem anc_step (ps : List Permission) (a b : Nat) (h : parentOf ps a = some b)
    (k : Nat) : ancestorK ps (k + 1) a = ancestorK ps k b := by
  simp [ancestorK, h]

theorem anc_none (ps : List Permission) {a : Nat} (h : parentOf ps a = none)
    (k : Nat) : ancestorK ps (k + 1) a = none := by
  simp [ancestorK, h]

theorem parentOf_row {ps : List Permission} {a b : Nat}
    (h : parentOf ps a = some b) : ∃ p ∈ ps, p.id = a ∧ p.parent_id = b := by
  unfold parentOf findPermRow at h
  cases hf : ps.find? (fun p => p.id == a) with
  | none => rw [hf] at h; simp at h
  | some p =>
    rw [hf] at h
    simp only [Option.map_some'] at h
    cases h
    exact ⟨p, List.mem_of_find?_eq_some hf, by simpa using List.find?_some hf, rfl⟩

theorem anc_lt (ps : List Permission) (hlt : ∀ p ∈ ps, p.parent_id < p.id) :
    ∀ k a b, ancestorK ps (k + 1) a = some b → b < a := by
  intro k
  induction k with
  | zero =>
    intro a b h
    cases hpo : parentOf ps a with
    | none => rw [anc_none ps hpo 0] at h; cases h
    | some c =>
      rw [anc_step ps a c hpo 0] at h
      simp only [ancestorK] at h
      cases h
      obtain ⟨p, hp, hpa, hpb⟩ := parentOf_row hpo
      rw [← hpa, ← hpb]
      exact hlt p hp
  | succ k ih =>
    intro a b h
    cases hpo : parentOf ps a with
    | none => rw [anc_none ps hpo (k + 1)] at h; cases h
    | some c =>
      rw [anc_step ps a c hpo (k + 1)] at h
      have hca : c < a := by
        obtain ⟨p, hp, hpa, hpb⟩ := parentOf_row hpo
        rw [← hpa, ← hpb]
        exact hlt p hp
      exact lt_trans (ih c b h) hca

theorem acyclic_of_parent_lt (ps : List Permission)
    (hlt : ∀ p ∈ ps, p.parent_id < p.id) : Acyclic ps := by
  intro a k h
  exact absurd (anc_lt ps hlt k a a h) (lt_irrefl a)

theorem anc_output (ps : List Permission) :
    ∀ k a b, ancestorK ps (k + 1) a = some b → ∃ c, parentOf ps c = some b := by
  intro k
  induction k with
  | zero =>
    intro a b h
    cases hpo : parentOf ps a with
    | none => rw [anc_none ps hpo 0] at h; cases h
    | some c =>
      rw [anc_step ps a c hpo 0] at h
      simp only [ancestorK] at h
      cases h
      exact ⟨a, hpo⟩
  | succ k ih =>
    intro a b h
    cases hpo : parentOf ps a with
    | none => rw [anc_none ps hpo (k + 1)] at h; cases h
    | some c =>
      rw [anc_step ps a c hpo (k + 1)] at h
      exact ih c b h

theorem findPermRow_append (ps qs : List Permission) (a : Nat) :
    findPermRow (ps ++ qs) a = (findPermRow ps a).or (findPermRow qs a) := by
  unfold findPermRow
  exact List.find?_append

theorem parentOf_append_ne {ps : List Permission} {row : Permission} {a : Nat}
    (hne : a ≠ row.id) : parentOf (ps ++ [row]) a = parentOf ps a := by
  unfold parentOf
  rw [findPermRow_append]
  cases hf : findPermRow ps a with
  | some p => rfl
  | none =>
    have hb : (row.id == a) = false := beq_eq_false_iff_ne.mpr (Ne.symm hne)
    have h1 : findPermRow [row] a = none := by
      unfold findPermRow
      simp [List.find?, hb]
    rw [h1]
    rfl

theorem parentOf_append_self {ps : List Permission} {row : Permission}
    (hfresh : ∀ p ∈ ps, p.id ≠ row.id) :
    parentOf (ps ++ [row]) row.id = some row.parent_id := by
  unfold parentOf
  rw [findPermRow_append]
  have h1 : findPermRow ps row.id = none := by
    unfold findPermRow
    rw [List.find?_eq_none]
    intro p hp
    simp only [beq_iff_eq]
    exact hfresh p hp
  rw [h1]
  have h2 : findPermRow [row] row.id = some row := by
    unfold findPermRow
    simp [List.find?]
  rw [h2]
  rfl

theorem parentOf_ext_avoid {ps : List Permission} {row : Permission}
    (hpe : ParentsExist ps) (hfresh : ∀ p ∈ ps, p.id ≠ row.id)
    (h0 : row.id ≠ 0) (hrp : row.parent_id ≠ row.id) :
    ∀ a b, parentOf (ps ++ [row]) a = some b → b ≠ row.id := by
  intro a b h
  by_cases ha : a = row.id
  · subst ha
    rw [parentOf_append_self hfresh] at h
    injection h with h2
    rw [← h2]
    exact hrp
  · rw [parentOf_append_ne ha] at h
    obtain ⟨p, hp, _, hpb⟩ := parentOf_row h
    rcases hpe p hp with hz | ⟨q, hq, hqid⟩
    · rw [← hpb, hz]
      exact Ne.symm h0
    · rw [← hpb, ← hqid]
      exact hfresh q hq

theorem anc_ext_transfer {ps : List Permission} {row : Permission}
    (hpe : ParentsExist ps) (hfresh : ∀ p ∈ ps, p.id ≠ row.id)
    (h0 : row.id ≠ 0) (hrp : row.parent_id ≠ row.id) :
    ∀ k a, a ≠ row.id → ancestorK (ps ++ [row]) k a = ancestorK ps k a := by
  intro k
  induction k with
  | zero => intro a _; rfl
  | succ k ih =>
    intro a ha
    have hpe2 : parentOf (ps ++ [row]) a = parentOf ps a := parentOf_append_ne ha
    cases hpo : parentOf ps a with
    | none =>
      rw [anc_none _ (hpe2.trans hpo) k, anc_none ps hpo k]
    | some c =>
      have hcne : c ≠ row.id :=
        parentOf_ext_avoid hpe hfresh h0 hrp a c (hpe2.trans hpo)
      rw [anc_step _ a c (hpe2.trans hpo) k, anc_step ps a c hpo k]
      exact ih c hcne

theorem acyclic_insert {ps : List Permission} {row : Permission}
    (hacy : Acyclic ps) (hpe : ParentsExist ps)
    (hfresh : ∀ p ∈ ps, p.id ≠ row.id) (h0 : row.id ≠ 0)
    (hrp0 : row.parent_id ≠ row.id) : Acyclic (ps ++ [row]) := by
  intro a k h
  by_cases ha : a = row.id
  · subst ha
    rw [anc_step _ _ _ (parentOf_append_self hfresh) k] at h
    cases k with
    | zero =>
      simp only [ancestorK] at h
      injection h with h2
      exact hrp0 h2
    | succ k2 =>
      rw [anc_ext_transfer hpe hfresh h0 hrp0 (k2 + 1) row.parent_id hrp0] at h
      obtain ⟨c, hc⟩ := anc_output ps k2 _ _ h
      obtain ⟨p, hp, _, hpb⟩ := parentOf_row hc
      rcases hpe p hp with hz | ⟨q, hq, hqid⟩
      · exact h0 (hpb.symm.trans hz)
      · exact hfresh q hq (hqid.trans hpb)
  · rw [anc_ext_transfer hpe hfresh h0 hrp0 (k + 1) a ha] at h
    exact hacy a k h

/-! ## Well-formedness preservation of the permission service -/

theorem insertPermission_WF (st : PermState) (d : PermData) (hwf : WFPerm st)
    (hparok : d.parent_id = 0 ∨ ∃ q ∈ st.perms, q.id = d.parent_id) :
    WFPerm (insertPermission st d) := by
  obtain ⟨hacy, hpe, hlt, hpos⟩ := hwf
  have hfresh : ∀ p ∈ st.perms, p.id ≠ st.nextId :=
    fun p hp => Nat.ne_of_lt (hlt p hp)
  have h0 : st.nextId ≠ 0 := Nat.pos_iff_ne_zero.mp hpos
  have hrp0 : d.parent_id ≠ st.nextId := by
    rcases hparok with hz | ⟨q, hq, hqid⟩
    · rw [hz]; exact Ne.symm h0
    · rw [← hqid]; exact hfresh q hq
  refine ⟨acyclic_insert hacy hpe hfresh h0 hrp0, ?_, ?_, Nat.succ_pos _⟩
  · intro p hp
    rcases List.mem_append.mp hp with hold | hnew
    · rcases hpe p hold with hz | ⟨q, hq, hqid⟩
      · exact Or.inl hz
      · exact Or.inr ⟨q, List.mem_append_left _ hq, hqid⟩
    · rw [List.mem_singleton] at hnew
      subst hnew
      rcases hparok with hz | ⟨q, hq, hqid⟩
      · exact Or.inl hz
      · exact Or.inr ⟨q, List.mem_append_left _ hq, hqid⟩
  · intro p hp
    rcases List.mem_append.mp hp with hold | hnew
    · exact lt_trans (hlt p hold) (Nat.lt_succ_self _)
    · rw [List.mem_singleton] at hnew
      subst hnew
      exact Nat.lt_succ_self _

theorem createPermission_ok_WF (st : PermState) (d : PermData) (hwf : WFPerm st)
    (st2 : PermState) (hok : createPermission st d = .ok st2) : WFPerm st2 := by
  unfold createPermission at hok
  cases hcode : st.perms.find? (fun p => p.code == d.code) with
  | some p => rw [hcode] at hok; cases hok
  | none =>
    rw [hcode] at hok
    by_cases hpar : 0 < d.parent_id
    · rw [if_pos hpar] at hok
      cases hfind : findPermRow st.perms d.parent_id with
      | none => rw [hfind] at hok; cases hok
      | some q =>
        rw [hfind] at hok
        cases hok
        refine insertPermission_WF st d hwf (Or.inr ⟨q, ?_, ?_⟩)
        · exact List.mem_of_find?_eq_some hfind
        · simpa using List.find?_some hfind
    · rw [if_neg hpar] at hok
      cases hok
      exact insertPermission_WF st d hwf (Or.inl (Nat.eq_zero_of_not_pos hpar))

theorem runCreates_WF :
    ∀ (ds : List PermData) (st : PermState), WFPerm st → WFPerm (runCreates st ds) := by
  intro ds
  induction ds with
  | nil => intro st hwf; exact hwf
  | cons d rest ih =>
    intro st hwf
    rw [runCreates]
    cases hc : createPermission st d with
    | ok st2 =>
      simp only [hc]
      exact ih st2 (createPermission_ok_WF st d hwf st2 hc)
    | error e =>
      simp only [hc]
      exact ih st hwf

/-! ## Claim theorems: permission-tree invariants of the service -/

/-- **C2** (amended): on a well-formed table, every sequence of
`createPermission` calls preserves acyclicity (the service checks the parent
exists and the fresh id cannot close a cycle); `updatePermission` rejects
`parent_id = id` and a missing referenced parent with the InvalidArgument
errors the claim names; but, as the counterexample shows, `updatePermission`
does *not* preserve acyclicity in general — reparenting a node under one of
its descendants creates a cycle of length ≥ 2 that passes both guards. -/
theorem c2_create_preserves_forest (st : PermState) (hwf : WFPerm st) :
    (∀ ds, Acyclic (runCreates st ds).perms) ∧
    (∀ pid u p0, findPermRow st.perms pid = some p0 → u.parent_id = some pid →
      0 < pid → updatePermission st pid u = .error "不能将自己设置为父权限") ∧
    (∀ pid np u p0, findPermRow st.perms pid = some p0 → u.parent_id = some np →
      0 < np → np ≠ pid → findPermRow st.perms np = none →
      updatePermission st pid u = .error "父权限不存在") := by
  refine ⟨?_, ?_, ?_⟩
  · intro ds
    exact (runCreates_WF ds st hwf).1
  · intro pid u p0 hfound hupd hpos
    unfold updatePermission
    rw [hfound]
    simp [hupd, hpos]
  · intro pid np u p0 hfound hupd hpos hne hnone
    unfold updatePermission
    rw [hfound]
    simp [hupd, hpos, hne, hnone]

/-- Witness for C2 on a concrete one-row well-formed table. -/
theorem c2_create_preserves_forest_witness :
    updatePermission wPermState 1 { parent_id := some 1 }
      = .error "不能将自己设置为父权限" :=
  (c2_create_preserves_forest wPermState
    ⟨acyclic_of_parent_lt _ (by decide), by unfold ParentsExist; decide,
      by decide, by decide⟩).2.1
    1 { parent_id := some 1 } (samplePerm 1 0 0 1) (by decide) rfl (by decide)

/-- Counterexample for C2 as stated: create a root (id 1), create its child
(id 2), then update permission 1 with `parent_id = 2`.  Every step passes the
self-parenting and existence guards, yet the resulting table has the 2-cycle
`1 → 2 → 1`: the sequence of `createPermission` and `updatePermission`
operations does not preserve acyclicity. -/
theorem c2_counterexample :
    isOkPerm c2Run = true ∧ ancestorK c2FinalPerms 2 1 = some 1 ∧
      ¬ Acyclic c2FinalPerms := by
  refine ⟨rfl, by decide, ?_⟩
  intro h
  exact h 1 1 (by decide)

/-! ## Helper lemmas for the permission tree -/

theorem findPermRow_eq_of_mem {ps : List Permission} (hn : NodupIds ps) :
    ∀ p ∈ ps, findPermRow ps p.id = some p := by
  induction ps with
  | nil => intro p hp; cases hp
  | cons q rest ih =>
    intro p hp
    have hn2 : (q.id ∉ rest.map (fun p => p.id)) ∧ NodupIds rest := by
      unfold NodupIds at hn
      rw [List.map_cons, List.nodup_cons] at hn
      exact hn
    unfold findPermRow
    rcases List.mem_cons.mp hp with rfl | hpr
    · simp [List.find?]
    · have hq : (q.id == p.id) = false := by
        refine beq_eq_false_iff_ne.mpr ?_
        intro hqp
        exact hn2.1 (hqp ▸ List.mem_map.mpr ⟨p, hpr, rfl⟩)
      rw [List.find?_cons, hq]
      exact ih hn2.2 p hpr

theorem parentOf_of_mem {ps : List Permission} (hn : NodupIds ps) {c : Permission}
    (hc : c ∈ ps) : parentOf ps c.id = some c.parent_id := by
  unfold parentOf
  rw [findPermRow_eq_of_mem hn c hc]
  rfl

theorem parentOf_zero {ps : List Permission} (hz : NoZeroId ps) :
    parentOf ps 0 = none := by
  unfold parentOf findPermRow
  have h1 : ps.find? (fun p => p.id == 0) = none :=
    List.find?_eq_none.mpr (fun p hp => by simp [hz p hp])
  rw [h1]
  rfl

theorem anc_add (ps : List Permission) :
    ∀ j k a, ancestorK ps (j + k) a
      = (ancestorK ps j a).bind (fun b => ancestorK ps k b) := by
  intro j
  induction j with
  | zero =>
    intro k a
    rw [Nat.zero_add]
    rfl
  | succ j ih =>
    intro k a
    rw [Nat.succ_add]
    cases hpo : parentOf ps a with
    | none => rw [anc_none ps hpo (j + k), anc_none ps hpo j]; rfl
    | some c => rw [anc_step ps a c hpo (j + k), anc_step ps a c hpo j, ih k c]

theorem rooted_no_cycle {ps : List Permission} (hz : NoZeroId ps) :
    ∀ m a, ancestorK ps m a = some 0 → ∀ k, ancestorK ps (k + 1) a ≠ some a := by
  intro m
  induction m with
  | zero =>
    intro a h k
    injection h with h0
    subst h0
    rw [anc_none ps (parentOf_zero hz) k]
    simp
  | succ m ih =>
    intro a h k hc
    cases hpo : parentOf ps a with
    | none => rw [anc_none ps hpo m] at h; cases h
    | some y =>
      rw [anc_step ps a y hpo m] at h
      rw [anc_step ps a y hpo k] at hc
      have hcy : ancestorK ps (k + 1) y = some y := by
        rw [anc_add ps k 1 y, hc]
        show ancestorK ps 1 a = some y
        rw [anc_step ps a y hpo 0]
        rfl
      exact ih y h k hcy

theorem rooted_child {ps : List Permission} {c pid : Nat}
    (hparent : parentOf ps c = some pid) (hroot : Rooted ps pid) : Rooted ps c := by
  obtain ⟨m, hm⟩ := hroot
  exact ⟨m + 1, by rw [anc_step ps c pid hparent m]; exact hm⟩

theorem child_not_anc {ps : List Permission} (hz : NoZeroId ps)
    {c pid : Nat} (hparent : parentOf ps c = some pid) (hroot : Rooted ps pid) :
    ∀ k, ancestorK ps k pid ≠ some c := by
  obtain ⟨mc, hmc⟩ := rooted_child hparent hroot
  have hnc := rooted_no_cycle hz mc c hmc
  intro k hk
  cases k with
  | zero =>
    injection hk with hk2
    have h1 : ancestorK ps 1 c = some c := by
      rw [anc_step ps c pid hparent 0, hk2]
      rfl
    exact hnc 0 h1
  | succ k2 =>
    have h2 : ancestorK ps (k2 + 2) c = some c := by
      rw [show k2 + 2 = 1 + (k2 + 1) from by omega, anc_add ps 1 (k2 + 1) c]
      have h1 : ancestorK ps 1 c = some pid := by
        rw [anc_step ps c pid hparent 0]
        rfl
      rw [h1]
      exact hk
    exact hnc (k2 + 1) h2

theorem treeInv_fuel_pos {ps : List Permission} {f pid : Nat} {trail : List Nat}
    (inv : TreeInv ps f pid trail) : 1 ≤ f := by
  have hsub : trail ⊆ ps.map (fun p => p.id) := by
    intro x hx
    obtain ⟨p, hp, hpid⟩ := inv.idsIn x hx
    exact List.mem_map.mpr ⟨p, hp, hpid⟩
  have hlen : trail.length ≤ ps.length := by
    have h1 := (inv.nodup.subperm hsub).length_le
    simpa using h1
  have h2 := inv.fuel
  omega

theorem treeInv_descend {ps : List Permission} (hn : NodupIds ps) (hz : NoZeroId ps)
    {g pid : Nat} {trail : List Nat} (inv : TreeInv ps (g + 1) pid trail)
    {c : Permission} (hc : c ∈ ps) (hcp : c.parent_id = pid) :
    TreeInv ps g c.id (c.id :: trail) := by
  have hparent : parentOf ps c.id = some pid := by
    rw [parentOf_of_mem hn hc, hcp]
  have hcna := child_not_anc hz hparent inv.rooted
  refine ⟨rooted_child hparent inv.rooted, ?_, ?_, ?_, ?_⟩
  · rw [List.nodup_cons]
    refine ⟨?_, inv.nodup⟩
    intro hin
    obtain ⟨k, hk⟩ := inv.anc c.id hin
    exact hcna k hk
  · intro x hx
    rcases List.mem_cons.mp hx with rfl | hx2
    · exact ⟨c, hc, rfl⟩
    · exact inv.idsIn x hx2
  · intro x hx
    rcases List.mem_cons.mp hx with rfl | hx2
    · exact ⟨0, rfl⟩
    · obtain ⟨k, hk⟩ := inv.anc x hx2
      exact ⟨k + 1, by rw [anc_step ps c.id pid hparent k]; exact hk⟩
  · have h2 := inv.fuel
    simp only [List.length_cons]
    omega

theorem buildTreeF_succ (ps : List Permission) (g pid : Nat) :
    buildTreeF ps (g + 1) pid =
      (ps.filter (fun p => p.parent_id == pid)).map (fun p =>
        PTree.node p (if (buildTreeF ps g p.id).isEmpty then none
          else some (buildTreeF ps g p.id))) := by
  simp only [buildTreeF]

theorem rootLabels_buildTreeF (ps : List Permission) (g pid : Nat) :
    rootLabels (buildTreeF ps (g + 1) pid)
      = ps.filter (fun p => p.parent_id == pid) := by
  rw [buildTreeF_succ]
  unfold rootLabels
  rw [List.map_map]
  conv_rhs => rw [← List.map_id (ps.filter (fun p => p.parent_id == pid))]
  apply List.map_congr_left
  intro a _
  rfl

theorem treeLabels_node (p : Permission) (oc : Option (List PTree)) :
    treeLabels (PTree.node p oc)
      = p :: (match oc with | none => [] | some cs => forestLabels cs) := by
  cases oc <;> rfl

theorem forestLabels_flatMap (F : List PTree) :
    forestLabels F = F.flatMap treeLabels := by
  induction F with
  | nil => rfl
  | cons t ts ih => rw [forestLabels, ih]; rfl

theorem forestOK_iff (ps : List Permission) (F : List PTree) :
    ForestOK ps F ↔ ∀ t ∈ F, TreeOK ps t := by
  induction F with
  | nil => simp [ForestOK]
  | cons t ts ih =>
    rw [ForestOK, ih]
    constructor
    · rintro ⟨h1, h2⟩ t2 ht2
      rcases List.mem_cons.mp ht2 with rfl | h3
      · exact h1
      · exact h2 t2 h3
    · intro h
      exact ⟨h t (List.mem_cons_self _ _),
        fun t2 ht2 => h t2 (List.mem_cons_of_mem _ ht2)⟩

theorem forestSorted_iff (F : List PTree) :
    ForestSorted F ↔ ∀ t ∈ F, TreeSorted t := by
  induction F with
  | nil => simp [ForestSorted]
  | cons t ts ih =>
    rw [ForestSorted, ih]
    constructor
    · rintro ⟨h1, h2⟩ t2 ht2
      rcases List.mem_cons.mp ht2 with rfl | h3
      · exact h1
      · exact h2 t2 h3
    · intro h
      exact ⟨h t (List.mem_cons_self _ _),
        fun t2 ht2 => h t2 (List.mem_cons_of_mem _ ht2)⟩

theorem filter_flatMap {α β : Type} (l : List α) (f : α → List β) (p : β → Bool) :
    (l.flatMap f).filter p = l.flatMap (fun a => (f a).filter p) := by
  induction l with
  | nil => rfl
  | cons a l2 ih =>
    rw [List.flatMap_cons, List.flatMap_cons, List.filter_append, ih]

theorem flatMap_nil_of_all {α β : Type} (l : List α) (f : α → List β)
    (h : ∀ a ∈ l, f a = []) : l.flatMap f = [] := by
  induction l with
  | nil => rfl
  | cons a l2 ih =>
    rw [List.flatMap_cons, h a (List.mem_cons_self _ _), List.nil_append]
    exact ih (fun a2 ha2 => h a2 (List.mem_cons_of_mem _ ha2))

theorem flatMap_map_local {α β γ : Type} (l : List α) (f : α → β) (g : β → List γ) :
    (l.map f).flatMap g = l.flatMap (fun a => g (f a)) := by
  induction l with
  | nil => rfl
  | cons a l2 ih => rw [List.map_cons, List.flatMap_cons, List.flatMap_cons, ih]

theorem flatMap_congr_local {α β : Type} {l : List α} {f g : α → List β}
    (h : ∀ a ∈ l, f a = g a) : l.flatMap f = l.flatMap g := by
  induction l with
  | nil => rfl
  | cons a l2 ih =>
    rw [List.flatMap_cons, List.flatMap_cons, h a (List.mem_cons_self _ _)]
    rw [ih (fun a2 ha2 => h a2 (List.mem_cons_of_mem _ ha2))]

theorem mem_kids {ps : List Permission} {pid : Nat} {c : Permission}
    (hc : c ∈ ps.filter (fun p => p.parent_id == pid)) :
    c ∈ ps ∧ c.parent_id = pid := by
  obtain ⟨h1, h2⟩ := List.mem_filter.mp hc
  exact ⟨h1, by simpa using h2⟩

theorem treeLabels_optNode (c : Permission) (sub : List PTree) :
    treeLabels (PTree.node c (if sub.isEmpty then none else some sub))
      = c :: forestLabels sub := by
  by_cases h : sub.isEmpty
  · rw [if_pos h, treeLabels_node, List.isEmpty_iff.mp h]
    rfl
  · rw [if_neg h, treeLabels_node]

theorem forestLabels_buildTreeF (ps : List Permission) (g pid : Nat) :
    forestLabels (buildTreeF ps (g + 1) pid)
      = (ps.filter (fun p => p.parent_id == pid)).flatMap (fun c =>
          c :: forestLabels (buildTreeF ps g c.id)) := by
  rw [buildTreeF_succ, forestLabels_flatMap, flatMap_map_local]
  apply flatMap_congr_local
  intro c _
  exact treeLabels_optNode c (buildTreeF ps g c.id)

theorem forestIds_buildTreeF (ps : List Permission) (g pid : Nat) :
    forestIds (buildTreeF ps (g + 1) pid)
      = (ps.filter (fun p => p.parent_id == pid)).flatMap (fun c =>
          c.id :: forestIds (buildTreeF ps g c.id)) := by
  unfold forestIds
  rw [forestLabels_buildTreeF, List.map_flatMap]
  apply flatMap_congr_local
  intro c _
  rw [List.map_cons]

theorem mem_labels_parentage (ps : List Permission) :
    ∀ f pid p, p ∈ forestLabels (buildTreeF ps f pid) →
      p ∈ ps ∧ (p.parent_id = pid ∨ ∃ q ∈ ps, q.id = p.parent_id) := by
  intro f
  induction f with
  | zero =>
    intro pid p h
    simp [buildTreeF, forestLabels] at h
  | succ g ih =>
    intro pid p h
    rw [forestLabels_buildTreeF] at h
    obtain ⟨c, hc, hp⟩ := List.mem_flatMap.mp h
    obtain ⟨hcmem, hcp⟩ := mem_kids hc
    rcases List.mem_cons.mp hp with rfl | hdeep
    · exact ⟨hcmem, Or.inl hcp⟩
    · obtain ⟨hpm, hrest⟩ := ih c.id p hdeep
      rcases hrest with hpc | hex
      · exact ⟨hpm, Or.inr ⟨c, hcmem, hpc.symm⟩⟩
      · exact ⟨hpm, Or.inr hex⟩

theorem desc_reaches {ps : List Permission} (hn : NodupIds ps) :
    ∀ f pid x, x ∈ forestIds (buildTreeF ps f pid) →
      ∃ k, ancestorK ps (k + 1) x = some pid := by
  intro f
  induction f with
  | zero =>
    intro pid x h
    simp [buildTreeF, forestIds, forestLabels] at h
  | succ g ih =>
    intro pid x h
    rw [forestIds_buildTreeF] at h
    obtain ⟨c, hc, hx⟩ := List.mem_flatMap.mp h
    obtain ⟨hcmem, hcp⟩ := mem_kids hc
    have hparent : parentOf ps c.id = some pid := by
      rw [parentOf_of_mem hn hcmem, hcp]
    rcases List.mem_cons.mp hx with rfl | hdeep
    · exact ⟨0, by rw [anc_step ps c.id pid hparent 0]; rfl⟩
    · obtain ⟨k, hk⟩ := ih c.id x hdeep
      refine ⟨k + 1, ?_⟩
      rw [anc_add ps (k + 1) 1 x, hk]
      show ancestorK ps 1 c.id = some pid
      rw [anc_step ps c.id pid hparent 0]
      rfl

theorem not_self_in_tree {ps : List Permission} (hn : NodupIds ps) (hz : NoZeroId ps)
    {pid : Nat} (hroot : Rooted ps pid) (f : Nat) :
    pid ∉ forestIds (buildTreeF ps f pid) := by
  intro h
  obtain ⟨k, hk⟩ := desc_reaches hn f pid pid h
  obtain ⟨m, hm⟩ := hroot
  exact rooted_no_cycle hz m pid hm k hk

theorem treeOK_buildTreeF {ps : List Permission} (hn : NodupIds ps) (hz : NoZeroId ps) :
    ∀ f pid trail, TreeInv ps f pid trail →
      ∀ t ∈ buildTreeF ps f pid, TreeOK ps t := by
  intro f
  induction f with
  | zero =>
    intro pid trail inv t _
    exact absurd (treeInv_fuel_pos inv) (by omega)
  | succ g ih =>
    intro pid trail inv t ht
    rw [buildTreeF_succ] at ht
    obtain ⟨c, hc, rfl⟩ := List.mem_map.mp ht
    obtain ⟨hcmem, hcp⟩ := mem_kids hc
    have inv2 := treeInv_descend hn hz inv hcmem hcp
    have hg : 1 ≤ g := treeInv_fuel_pos inv2
    obtain ⟨g2, rfl⟩ : ∃ g2, g = g2 + 1 := ⟨g - 1, by omega⟩
    by_cases hemp : (buildTreeF ps (g2 + 1) c.id).isEmpty = true
    · rw [if_pos hemp]
      show ps.filter (fun q => q.parent_id == c.id) = []
      have hsub : buildTreeF ps (g2 + 1) c.id = [] := List.isEmpty_iff.mp hemp
      rw [buildTreeF_succ] at hsub
      exact List.map_eq_nil_iff.mp hsub
    · rw [if_neg hemp]
      refine ⟨?_, rootLabels_buildTreeF ps g2 c.id, ?_⟩
      · exact List.isEmpty_eq_false.mp (Bool.not_eq_true _ ▸ hemp)
      · rw [forestOK_iff]
        intro t2 ht2
        exact ih c.id (c.id :: trail) inv2 t2 ht2

theorem treeSorted_buildTreeF {ps : List Permission}
    (hsorted : ps.Pairwise permLEP) :
    ∀ f pid, ∀ t ∈ buildTreeF ps f pid, TreeSorted t := by
  intro f
  induction f with
  | zero => intro pid t ht; simp [buildTreeF] at ht
  | succ g ih =>
    intro pid t ht
    rw [buildTreeF_succ] at ht
    obtain ⟨c, _, rfl⟩ := List.mem_map.mp ht
    by_cases hemp : (buildTreeF ps g c.id).isEmpty = true
    · rw [if_pos hemp]
      show True
      trivial
    · rw [if_neg hemp]
      refine ⟨?_, ?_⟩
      · cases g with
        | zero => exact absurd rfl hemp
        | succ g2 =>
          rw [rootLabels_buildTreeF]
          exact List.Pairwise.sublist (List.filter_sublist ps) hsorted
      · rw [forestSorted_iff]
        intro t2 ht2
        exact ih c.id t2 ht2

/-- **C3**: on a flat list of enabled rows with distinct nonzero ids ordered
by `(sort_order, id)`, `buildTree` returns the forest whose roots are exactly
the rows with `parent_id = 0` in order; every node's `children` field is
absent exactly when no row names it as parent and otherwise carries exactly
those rows, in `(sort_order, id)` order, recursively; and a row whose
`parent_id` is neither 0 nor the id of any row appears nowhere in the output. -/
theorem c3_build_permission_tree (ps : List Permission)
    (hn : NodupIds ps) (hz : NoZeroId ps)
    (_henabled : ∀ p ∈ ps, p.status = 1)
    (hsorted : ps.Pairwise permLEP) :
    rootLabels (buildTree ps 0) = ps.filter (fun p => p.parent_id == 0) ∧
    (∀ t ∈ buildTree ps 0, TreeOK ps t) ∧
    (∀ p ∈ ps, p.parent_id ≠ 0 → (∀ q ∈ ps, q.id ≠ p.parent_id) →
      p ∉ forestLabels (buildTree ps 0)) ∧
    (∀ t ∈ buildTree ps 0, TreeSorted t) := by
  have invroot : TreeInv ps (ps.length + 1) 0 [] :=
    ⟨⟨0, rfl⟩, List.nodup_nil, by simp, by simp, by simp⟩
  refine ⟨rootLabels_buildTreeF ps ps.length 0, ?_, ?_, ?_⟩
  · intro t ht
    exact treeOK_buildTreeF hn hz (ps.length + 1) 0 [] invroot t ht
  · intro p hp hne hq hmem
    obtain ⟨_, hor⟩ := mem_labels_parentage ps (ps.length + 1) 0 p hmem
    rcases hor with h1 | ⟨q, hqm, hqid⟩
    · exact hne h1
    · exact hq q hqm hqid
  · intro t ht
    exact treeSorted_buildTreeF hsorted (ps.length + 1) 0 t ht

/-- Witness for C3 on a concrete sorted three-row list. -/
theorem c3_build_permission_tree_witness :
    rootLabels (buildTree psC3w 0) = psC3w.filter (fun p => p.parent_id == 0) :=
  (c3_build_permission_tree psC3w (by unfold NodupIds; decide)
    (by unfold NoZeroId; decide) (by decide) (by decide)).1

theorem label_mem_treeLabels (t : PTree) : t.label ∈ treeLabels t := by
  cases t with
  | node c oc =>
    rw [treeLabels_node]
    exact List.mem_cons_self _ _

theorem rootLabels_subset_forestLabels (F : List PTree) :
    ∀ p ∈ rootLabels F, p ∈ forestLabels F := by
  induction F with
  | nil => intro p hp; cases hp
  | cons t ts ih =>
    intro p hp
    rcases List.mem_cons.mp hp with rfl | hp2
    · rw [forestLabels]
      exact List.mem_append_left _ (label_mem_treeLabels t)
    · rw [forestLabels]
      exact List.mem_append_right _ (ih p hp2)

theorem kids_in_tree {ps : List Permission} (hn : NodupIds ps) (hz : NoZeroId ps) :
    ∀ f pid trail, TreeInv ps f pid trail →
      ∀ p ∈ forestLabels (buildTreeF ps f pid), ∀ q ∈ ps, q.parent_id = p.id →
        q ∈ forestLabels (buildTreeF ps f pid) := by
  intro f
  induction f with
  | zero =>
    intro pid trail inv p _
    exact absurd (treeInv_fuel_pos inv) (by omega)
  | succ g ih =>
    intro pid trail inv p hp q hq hqp
    rw [forestLabels_buildTreeF] at hp ⊢
    obtain ⟨c, hc, hpc⟩ := List.mem_flatMap.mp hp
    obtain ⟨hcmem, hcp⟩ := mem_kids hc
    have inv2 := treeInv_descend hn hz inv hcmem hcp
    have hg : 1 ≤ g := treeInv_fuel_pos inv2
    obtain ⟨g2, rfl⟩ : ∃ g2, g = g2 + 1 := ⟨g - 1, by omega⟩
    refine List.mem_flatMap.mpr ⟨c, hc, ?_⟩
    rcases List.mem_cons.mp hpc with rfl | hdeep
    · refine List.mem_cons_of_mem _ ?_
      have hqroot : q ∈ rootLabels (buildTreeF ps (g2 + 1) p.id) := by
        rw [rootLabels_buildTreeF]
        exact List.mem_filter.mpr ⟨hq, by simp [hqp]⟩
      exact rootLabels_subset_forestLabels _ q hqroot
    · exact List.mem_cons_of_mem _ (ih c.id (c.id :: trail) inv2 p hdeep q hq hqp)

theorem two_parents_contra_le {ps : List Permission} (hz : NoZeroId ps)
    {x c1id c2id pid : Nat}
    (hpar1 : parentOf ps c1id = some pid) (hpar2 : parentOf ps c2id = some pid)
    (hroot : Rooted ps pid) (hne : c1id ≠ c2id) {a b : Nat} (hab : a ≤ b)
    (ha : ancestorK ps (a + 1) x = some c1id)
    (hb : ancestorK ps (b + 1) x = some c2id) : False := by
  have hsplit : ancestorK ps (b + 1) x
      = (ancestorK ps (a + 1) x).bind (fun y => ancestorK ps (b - a) y) := by
    rw [← anc_add ps (a + 1) (b - a) x]
    congr 1
    omega
  rw [hsplit, ha] at hb
  simp only [Option.some_bind] at hb
  cases hd : b - a with
  | zero =>
    rw [hd] at hb
    injection hb with hb2
    exact hne hb2
  | succ m =>
    rw [hd] at hb
    rw [anc_step ps c1id pid hpar1 m] at hb
    exact child_not_anc hz hpar2 hroot m hb

theorem two_parents_contra {ps : List Permission} (hz : NoZeroId ps)
    {x c1id c2id pid : Nat}
    (hpar1 : parentOf ps c1id = some pid) (hpar2 : parentOf ps c2id = some pid)
    (hroot : Rooted ps pid) (hne : c1id ≠ c2id) {a b : Nat}
    (ha : ancestorK ps (a + 1) x = some c1id)
    (hb : ancestorK ps (b + 1) x = some c2id) : False := by
  rcases Nat.le_total a b with hab | hab
  · exact two_parents_contra_le hz hpar1 hpar2 hroot hne hab ha hb
  · exact two_parents_contra_le hz hpar2 hpar1 hroot (Ne.symm hne) hab hb ha

theorem nodup_forestIds {ps : List Permission} (hn : NodupIds ps) (hz : NoZeroId ps) :
    ∀ f pid trail, TreeInv ps f pid trail →
      (forestIds (buildTreeF ps f pid)).Nodup := by
  intro f
  induction f with
  | zero =>
    intro pid trail _
    simp [buildTreeF, forestIds, forestLabels]
  | succ g ih =>
    intro pid trail inv
    rw [forestIds_buildTreeF, List.nodup_flatMap]
    constructor
    · intro c hc
      obtain ⟨hcmem, hcp⟩ := mem_kids hc
      have inv2 := treeInv_descend hn hz inv hcmem hcp
      have hparent : parentOf ps c.id = some pid := by
        rw [parentOf_of_mem hn hcmem, hcp]
      rw [List.nodup_cons]
      exact ⟨not_self_in_tree hn hz (rooted_child hparent inv.rooted) g,
        ih c.id (c.id :: trail) inv2⟩
    · have hkid_nodup : (ps.filter (fun p => p.parent_id == pid)).Pairwise
          (fun c1 c2 => c1.id ≠ c2.id) := by
        have h1 : ((ps.filter (fun p => p.parent_id == pid)).map
            (fun p => p.id)).Nodup :=
          List.Nodup.sublist (List.Sublist.map _ (List.filter_sublist ps)) hn
        exact List.pairwise_map.mp h1
      refine List.Pairwise.imp_of_mem ?_ hkid_nodup
      intro c1 c2 hc1 hc2 hne
      obtain ⟨hc1mem, hc1p⟩ := mem_kids hc1
      obtain ⟨hc2mem, hc2p⟩ := mem_kids hc2
      have hpar1 : parentOf ps c1.id = some pid := by
        rw [parentOf_of_mem hn hc1mem, hc1p]
      have hpar2 : parentOf ps c2.id = some pid := by
        rw [parentOf_of_mem hn hc2mem, hc2p]
      intro x hx1 hx2
      rcases List.mem_cons.mp hx1 with rfl | hx1d
      · rcases List.mem_cons.mp hx2 with h | hx2d
        · exact hne h
        · obtain ⟨k, hk⟩ := desc_reaches hn g c2.id c1.id hx2d
          rw [anc_step ps c1.id pid hpar1 k] at hk
          exact child_not_anc hz hpar2 inv.rooted k hk
      · rcases List.mem_cons.mp hx2 with rfl | hx2d
        · obtain ⟨k, hk⟩ := desc_reaches hn g c1.id c2.id hx1d
          rw [anc_step ps c2.id pid hpar2 k] at hk
          exact child_not_anc hz hpar1 inv.rooted k hk
        · obtain ⟨a, ha⟩ := desc_reaches hn g c1.id x hx1d
          obtain ⟨b, hb⟩ := desc_reaches hn g c2.id x hx2d
          exact two_parents_contra hz hpar1 hpar2 inv.rooted
            (fun h => hne h) ha hb

theorem flatMap_singleton_local {α : Type} (l : List α) :
    l.flatMap (fun a => [a]) = l := by
  induction l with
  | nil => rfl
  | cons a l2 ih => rw [List.flatMap_cons, ih]; rfl

theorem flt_absent (ps : List Permission) :
    ∀ f pid target, target ≠ pid →
      target ∉ forestIds (buildTreeF ps f pid) →
      (forestLabels (buildTreeF ps f pid)).filter (fun x => x.parent_id == target)
        = [] := by
  intro f
  induction f with
  | zero =>
    intro pid target _ _
    simp [buildTreeF, forestLabels]
  | succ g ih =>
    intro pid target hne hnot
    rw [forestIds_buildTreeF] at hnot
    rw [forestLabels_buildTreeF, filter_flatMap]
    apply flatMap_nil_of_all
    intro c hc
    obtain ⟨hcmem, hcp⟩ := mem_kids hc
    have hne_cid : target ≠ c.id := fun h =>
      hnot (List.mem_flatMap.mpr ⟨c, hc, by rw [h]; exact List.mem_cons_self _ _⟩)
    have hnot_sub : target ∉ forestIds (buildTreeF ps g c.id) := fun h =>
      hnot (List.mem_flatMap.mpr ⟨c, hc, List.mem_cons_of_mem _ h⟩)
    have hcond : ¬ ((c.parent_id == target) = true) := by
      simp only [hcp, beq_iff_eq]
      exact Ne.symm hne
    rw [List.filter_cons, if_neg hcond]
    exact ih c.id target hne_cid hnot_sub

theorem flt_at_pid {ps : List Permission} (hn : NodupIds ps) (hz : NoZeroId ps)
    {pid : Nat} (hroot : Rooted ps pid) (g : Nat) :
    (forestLabels (buildTreeF ps (g + 1) pid)).filter (fun x => x.parent_id == pid)
      = ps.filter (fun x => x.parent_id == pid) := by
  rw [forestLabels_buildTreeF, filter_flatMap]
  have hblocks : ∀ c ∈ ps.filter (fun p => p.parent_id == pid),
      ((c :: forestLabels (buildTreeF ps g c.id)).filter
        (fun x => x.parent_id == pid)) = [c] := by
    intro c hc
    obtain ⟨hcmem, hcp⟩ := mem_kids hc
    have hpar : parentOf ps c.id = some pid := by
      rw [parentOf_of_mem hn hcmem, hcp]
    have hpidne : pid ≠ c.id := by
      intro h
      exact child_not_anc hz hpar hroot 0
        (by rw [show ancestorK ps 0 pid = some pid from rfl, h])
    have hnot_sub : pid ∉ forestIds (buildTreeF ps g c.id) := by
      intro hmem
      obtain ⟨k, hk⟩ := desc_reaches hn g c.id pid hmem
      exact child_not_anc hz hpar hroot (k + 1) hk
    have hcond : (c.parent_id == pid) = true := by simp [hcp]
    rw [List.filter_cons, if_pos hcond,
      flt_absent ps g c.id pid hpidne hnot_sub]
  rw [flatMap_congr_local hblocks]
  exact flatMap_singleton_local _

theorem flt_descendant {ps : List Permission} (hn : NodupIds ps) (hz : NoZeroId ps) :
    ∀ f pid trail, TreeInv ps f pid trail → ∀ target,
      target ∈ forestIds (buildTreeF ps f pid) →
      (forestLabels (buildTreeF ps f pid)).filter (fun x => x.parent_id == target)
        = ps.filter (fun x => x.parent_id == target) := by
  intro f
  induction f with
  | zero =>
    intro pid trail inv
    exact absurd (treeInv_fuel_pos inv) (by omega)
  | succ g ih =>
    intro pid trail inv target htarget
    have hpidne : pid ≠ target := by
      intro h
      exact not_self_in_tree hn hz inv.rooted (g + 1) (h ▸ htarget)
    have hnodups := nodup_forestIds hn hz (g + 1) pid trail inv
    rw [forestIds_buildTreeF] at hnodups htarget
    rw [List.nodup_flatMap] at hnodups
    obtain ⟨hblocksnodup, hdisj⟩ := hnodups
    rw [forestLabels_buildTreeF, filter_flatMap]
    suffices h : ∀ ks : List Permission,
        (∀ c ∈ ks, c ∈ ps.filter (fun p => p.parent_id == pid)) →
        List.Pairwise (Function.onFun List.Disjoint
          (fun c => c.id :: forestIds (buildTreeF ps g c.id))) ks →
        target ∈ ks.flatMap (fun c => c.id :: forestIds (buildTreeF ps g c.id)) →
        ks.flatMap (fun c => (c :: forestLabels (buildTreeF ps g c.id)).filter
          (fun x => x.parent_id == target))
          = ps.filter (fun x => x.parent_id == target) by
      exact h _ (fun c hc => hc) hdisj htarget
    intro ks
    induction ks with
    | nil =>
      intro _ _ ht
      cases ht
    | cons c ks2 ihk =>
      intro hksmem hdisj2 ht
      obtain ⟨hcmem, hcp⟩ := mem_kids (hksmem c (List.mem_cons_self _ _))
      have hpar : parentOf ps c.id = some pid := by
        rw [parentOf_of_mem hn hcmem, hcp]
      have inv2 := treeInv_descend hn hz inv hcmem hcp
      have hcfilter : ¬ ((c.parent_id == target) = true) := by
        simp only [hcp, beq_iff_eq]
        exact hpidne
      rw [List.flatMap_cons]
      obtain ⟨hdisjhead, hdisjtail⟩ := List.pairwise_cons.mp hdisj2
      by_cases hin : target ∈ c.id :: forestIds (buildTreeF ps g c.id)
      · have hrest : ∀ c2 ∈ ks2,
            ((c2 :: forestLabels (buildTreeF ps g c2.id)).filter
              (fun x => x.parent_id == target)) = [] := by
          intro c2 hc2
          obtain ⟨hc2mem, hc2p⟩ := mem_kids (hksmem c2 (List.mem_cons_of_mem _ hc2))
          have hnotin2 : target ∉ c2.id :: forestIds (buildTreeF ps g c2.id) :=
            fun hmem2 => hdisjhead c2 hc2 hin hmem2
          have hne2 : target ≠ c2.id := fun h =>
            hnotin2 (by rw [h]; exact List.mem_cons_self _ _)
          have hnot2 : target ∉ forestIds (buildTreeF ps g c2.id) := fun h =>
            hnotin2 (List.mem_cons_of_mem _ h)
          have hcond2 : ¬ ((c2.parent_id == target) = true) := by
            simp only [hc2p, beq_iff_eq]
            exact hpidne
          rw [List.filter_cons, if_neg hcond2]
          exact flt_absent ps g c2.id target hne2 hnot2
        rw [flatMap_nil_of_all ks2 _ hrest, List.append_nil]
        rw [List.filter_cons, if_neg hcfilter]
        rcases List.mem_cons.mp hin with rfl | hdeep
        · have hg : 1 ≤ g := treeInv_fuel_pos inv2
          obtain ⟨g2, rfl⟩ : ∃ g2, g = g2 + 1 := ⟨g - 1, by omega⟩
          exact flt_at_pid hn hz (rooted_child hpar inv.rooted) g2
        · exact ih c.id (c.id :: trail) inv2 target hdeep
      · have hne_c : target ≠ c.id := fun h =>
          hin (by rw [h]; exact List.mem_cons_self _ _)
        have hnot_c : target ∉ forestIds (buildTreeF ps g c.id) := fun h =>
          hin (List.mem_cons_of_mem _ h)
        have hheadnil : ((c :: forestLabels (buildTreeF ps g c.id)).filter
            (fun x => x.parent_id == target)) = [] := by
          rw [List.filter_cons, if_neg hcfilter]
          exact flt_absent ps g c.id target hne_c hnot_c
        rw [hheadnil, List.nil_append]
        refine ihk (fun c2 hc2 => hksmem c2 (List.mem_cons_of_mem _ hc2))
          hdisjtail ?_
        rw [List.flatMap_cons] at ht
        rcases List.mem_append.mp ht with h1 | h2
        · exact absurd h1 hin
        · exact h2

theorem buildTreeF_stab {ps : List Permission} (hn : NodupIds ps) (hz : NoZeroId ps)
    (U : List Nat) (_hU : U.Nodup)
    (hclosed : ∀ pid, (pid = 0 ∨ pid ∈ U) → ∀ q ∈ ps, q.parent_id = pid → q.id ∈ U) :
    ∀ f pid (trail : List Nat), Rooted ps pid → trail.Nodup → (∀ x ∈ trail, x ∈ U) →
      (∀ x ∈ trail, ∃ k, ancestorK ps k pid = some x) →
      (pid = 0 ∨ pid ∈ U) →
      U.length + 1 ≤ f + trail.length →
      buildTreeF ps (f + 1) pid = buildTreeF ps f pid := by
  intro f
  induction f with
  | zero =>
    intro pid trail _ hnd hsubU _ _ hfuel
    exfalso
    have hlen : trail.length ≤ U.length :=
      (hnd.subperm (fun x hx => hsubU x hx)).length_le
    omega
  | succ g ih =>
    intro pid trail hroot hnd hsubU hanc hpid hfuel
    rw [buildTreeF_succ ps (g + 1) pid, buildTreeF_succ ps g pid]
    apply List.map_congr_left
    intro c hc
    obtain ⟨hcmem, hcp⟩ := mem_kids hc
    have hpar : parentOf ps c.id = some pid := by
      rw [parentOf_of_mem hn hcmem, hcp]
    have hrec : buildTreeF ps (g + 1) c.id = buildTreeF ps g c.id := by
      refine ih c.id (c.id :: trail) (rooted_child hpar hroot) ?_ ?_ ?_
        (Or.inr (hclosed pid hpid c hcmem hcp)) ?_
      · rw [List.nodup_cons]
        refine ⟨?_, hnd⟩
        intro hinTrail
        obtain ⟨k, hk⟩ := hanc c.id hinTrail
        exact child_not_anc hz hpar hroot k hk
      · intro x hx
        rcases List.mem_cons.mp hx with rfl | hx2
        · exact hclosed pid hpid c hcmem hcp
        · exact hsubU x hx2
      · intro x hx
        rcases List.mem_cons.mp hx with rfl | hx2
        · exact ⟨0, rfl⟩
        · obtain ⟨k, hk⟩ := hanc x hx2
          exact ⟨k + 1, by rw [anc_step ps c.id pid hpar k]; exact hk⟩
      · simp only [List.length_cons]
        omega
    rw [hrec]

theorem buildTreeF_stab_above {ps : List Permission} (hn : NodupIds ps)
    (hz : NoZeroId ps) (U : List Nat) (hU : U.Nodup)
    (hclosed : ∀ pid, (pid = 0 ∨ pid ∈ U) → ∀ q ∈ ps, q.parent_id = pid → q.id ∈ U) :
    ∀ d, buildTreeF ps (U.length + 1 + d) 0 = buildTreeF ps (U.length + 1) 0 := by
  intro d
  induction d with
  | zero => rfl
  | succ d ih =>
    have hstep : buildTreeF ps (U.length + 1 + d + 1) 0
        = buildTreeF ps (U.length + 1 + d) 0 := by
      refine buildTreeF_stab hn hz U hU hclosed (U.length + 1 + d) 0 []
        ⟨0, rfl⟩ List.nodup_nil ?_ ?_ (Or.inl rfl) ?_
      · intro x hx; cases hx
      · intro x hx; cases hx
      · simp only [List.length_nil]
        omega
    show buildTreeF ps (U.length + 1 + d + 1) 0 = buildTreeF ps (U.length + 1) 0
    rw [hstep]
    exact ih

theorem buildTreeF_congr (l1 l2 : List Permission) (U : List Nat)
    (hagree : ∀ x, (x = 0 ∨ x ∈ U) →
      l1.filter (fun p => p.parent_id == x) = l2.filter (fun p => p.parent_id == x))
    (hclosed : ∀ pid, (pid = 0 ∨ pid ∈ U) →
      ∀ q ∈ l2, q.parent_id = pid → q.id ∈ U) :
    ∀ f pid, (pid = 0 ∨ pid ∈ U) → buildTreeF l1 f pid = buildTreeF l2 f pid := by
  intro f
  induction f with
  | zero => intro pid _; rfl
  | succ g ih =>
    intro pid hpid
    rw [buildTreeF_succ, buildTreeF_succ, hagree pid hpid]
    apply List.map_congr_left
    intro c hc
    obtain ⟨hcmem, hcp⟩ := mem_kids hc
    rw [ih c.id (Or.inr (hclosed pid hpid c hcmem hcp))]

/-- **C9** (amended): on a flat list with pairwise-distinct nonzero ids —
the table invariants under which the JavaScript recursion terminates —
`buildTree` is idempotent: rebuilding from the preorder flattening of the
built tree returns the same tree. -/
theorem c9_idempotent (ps : List Permission) (hn : NodupIds ps) (hz : NoZeroId ps) :
    buildTree (forestLabels (buildTree ps 0)) 0 = buildTree ps 0 := by
  have invroot : TreeInv ps (ps.length + 1) 0 [] :=
    ⟨⟨0, rfl⟩, List.nodup_nil, by simp, by simp, by simp⟩
  have hUnodup : (forestIds (buildTree ps 0)).Nodup :=
    nodup_forestIds hn hz (ps.length + 1) 0 [] invroot
  have hclosed : ∀ pid, (pid = 0 ∨ pid ∈ forestIds (buildTree ps 0)) →
      ∀ q ∈ ps, q.parent_id = pid → q.id ∈ forestIds (buildTree ps 0) := by
    intro pid hpid q hq hqp
    rcases hpid with rfl | hmem
    · have hqroot : q ∈ rootLabels (buildTreeF ps (ps.length + 1) 0) := by
        rw [rootLabels_buildTreeF]
        exact List.mem_filter.mpr ⟨hq, by simp [hqp]⟩
      exact List.mem_map.mpr ⟨q, rootLabels_subset_forestLabels _ q hqroot, rfl⟩
    · obtain ⟨p, hp, hpid2⟩ := List.mem_map.mp hmem
      have hq2 : q ∈ forestLabels (buildTreeF ps (ps.length + 1) 0) :=
        kids_in_tree hn hz (ps.length + 1) 0 [] invroot p hp q hq
          (by rw [hqp, ← hpid2])
      exact List.mem_map.mpr ⟨q, hq2, rfl⟩
  have hagree : ∀ x, (x = 0 ∨ x ∈ forestIds (buildTree ps 0)) →
      (forestLabels (buildTree ps 0)).filter (fun p => p.parent_id == x)
        = ps.filter (fun p => p.parent_id == x) := by
    intro x hx
    rcases hx with rfl | hmem
    · exact flt_at_pid hn hz ⟨0, rfl⟩ ps.length
    · exact flt_descendant hn hz (ps.length + 1) 0 [] invroot x hmem
  have hcong := buildTreeF_congr (forestLabels (buildTree ps 0)) ps
    (forestIds (buildTree ps 0)) hagree hclosed
    ((forestLabels (buildTree ps 0)).length + 1) 0 (Or.inl rfl)
  have hUlen : (forestIds (buildTree ps 0)).length
      = (forestLabels (buildTree ps 0)).length := List.length_map _ _
  have hfllen : (forestLabels (buildTree ps 0)).length ≤ ps.length := by
    have hflnodup : (forestLabels (buildTree ps 0)).Nodup :=
      List.Nodup.of_map _ hUnodup
    have hsub : forestLabels (buildTree ps 0) ⊆ ps := fun p hp =>
      (mem_labels_parentage ps (ps.length + 1) 0 p hp).1
    exact (hflnodup.subperm hsub).length_le
  have hstab := buildTreeF_stab_above hn hz (forestIds (buildTree ps 0))
    hUnodup hclosed
  show buildTreeF (forestLabels (buildTree ps 0))
      ((forestLabels (buildTree ps 0)).length + 1) 0
    = buildTreeF ps (ps.length + 1) 0
  rw [hcong]
  have e1 : (forestLabels (buildTree ps 0)).length + 1
      = (forestIds (buildTree ps 0)).length + 1 + 0 := by
    rw [hUlen]
  have e2 : ps.length + 1
      = (forestIds (buildTree ps 0)).length + 1
        + (ps.length - (forestIds (buildTree ps 0)).length) := by
    rw [hUlen]
    omega
  rw [e1, hstab 0, e2, hstab (ps.length - (forestIds (buildTree ps 0)).length)]

/-- Witness for C9 on a concrete three-row forest. -/
theorem c9_idempotent_witness :
    buildTree (forestLabels (buildTree psC3w 0)) 0 = buildTree psC3w 0 :=
  c9_idempotent psC3w (by unfold NodupIds; decide) (by unfold NoZeroId; decide)

/-- Counterexample for C9 as stated: with a duplicated id (`psC9x`), both
copies of the root adopt the same child, so the flattening repeats that child
and rebuilding duplicates it under each copy — the rebuilt tree differs from
the original.  (With an id 0 present the original recursion does not even
terminate, so distinct nonzero ids are exactly the hypotheses under which
idempotence can hold.) -/
theorem c9_counterexample :
    buildTree (forestLabels (buildTree psC9x 0)) 0 ≠ buildTree psC9x 0 := by
  intro h
  have h2 := congrArg forestLabels h
  exact absurd h2 (by decide)

end MallApi
